import Mathlib

/-!
# sevki/crawler: the weighted link graph, its rank computation and the robots cache

Shallow embedding of `src/pagerank/pagerank.go` and of the robots cache of
`src/crawler.go`.

Modelling conventions.

* A Go `map[uint32]V` is an association list `List (Nat × V)`.  Lookup returns
  the first entry with the key, assignment replaces the first entry with the
  key or appends a new one, so a list built by assignments has no duplicate key.
  The storage order of the list is the order in which `range` visits the map;
  theorems quantify over every graph, hence over every such order.
* The weight type `K` is a parameter.  `Add` and `Link` use only its zero and
  its `+`, so they are stated for every `K`: for `Float64`, whose `+` rounds as
  IEEE 754 does, and for a linear ordered field (exact arithmetic).  `Rank` is
  embedded over a linear ordered field, in the exact arithmetic that the claims
  about it state; the concrete evaluations there instantiate `K` with `ℚ`.
* A `*Page` stored in `g.nodes` is modelled by the `Page` value under its key:
  `Add` is the only place that stores a pointer and it always stores a fresh,
  non-nil one, so a write through the pointer is an update of that entry.
* `Rank` visits its maps in storage order; in exact arithmetic the weights it
  computes are sums that do not depend on that order (`spread_perm`,
  `distribute_perm`, `iteration_weightAt`).  `Traverse`, whose result does
  depend on the order, takes the order of every `range` as a parameter.
* Locks and log lines have no effect on the graph and are left out.
* A nil-pointer dereference is the result `panic`; a loop that has not stopped
  within the given number of iterations is the result `outOfFuel`.
-/

set_option linter.unusedSectionVars false

namespace Crawler

/-! ## `net/url` and `hash/crc32` -/

/-- Go's `url.Userinfo`. -/
structure Userinfo where
  username : String
  password : String
  passwordSet : Bool
deriving DecidableEq, Repr

/-- Go's `url.URL`, field by field. -/
structure URL where
  Scheme : String
  Opaque : String
  User : Option Userinfo
  Host : String
  Path : String
  RawPath : String
  OmitHost : Bool
  ForceQuery : Bool
  RawQuery : String
  Fragment : String
  RawFragment : String
deriving DecidableEq, Repr

/-- The percent-encoding helpers that `URL.String` of `net/url` calls:
`Userinfo.String`, `escape(host, encodeHost)`, `EscapedPath` (a function of
`Path` and `RawPath`) and `EscapedFragment` (a function of `Fragment` and
`RawFragment`).  They belong to the Go standard library, not to this
repository, and are taken as a parameter. -/
structure Escapers where
  userinfo : Userinfo → String
  host : String → String
  path : String → String → String
  fragment : String → String → String

/-- The escapers on components that need no escaping (letters, digits,
`-`, `_`, `.`, `~`, `/`): every helper returns the component unchanged. -/
def plainEscapers : Escapers where
  userinfo := fun ui => if ui.passwordSet then ui.username ++ ":" ++ ui.password else ui.username
  host := fun h => h
  path := fun p _ => p
  fragment := fun f _ => f

/-- Go's `(*URL).String`: `scheme:opaque?query#fragment` or
`scheme://userinfo@host/path?query#fragment`. -/
def URL.String (E : Escapers) (u : URL) : String :=
  let buf := if u.Scheme ≠ "" then u.Scheme ++ ":" else ""
  let buf :=
    if u.Opaque ≠ "" then buf ++ u.Opaque
    else
      let buf :=
        if u.Scheme ≠ "" ∨ u.Host ≠ "" ∨ u.User.isSome then
          if u.OmitHost ∧ u.Host = "" ∧ u.User.isNone then buf
          else
            let buf := if u.Host ≠ "" ∨ u.Path ≠ "" ∨ u.User.isSome then buf ++ "//" else buf
            let buf :=
              match u.User with
              | some ui => buf ++ E.userinfo ui ++ "@"
              | none => buf
            if u.Host ≠ "" then buf ++ E.host u.Host else buf
        else buf
      let path := E.path u.Path u.RawPath
      let buf :=
        if path ≠ "" ∧ path.data.head? ≠ some '/' ∧ u.Host ≠ "" then buf ++ "/" else buf
      let buf :=
        if buf = "" ∧ (path.data.takeWhile (fun c => c ≠ '/')).contains ':' then buf ++ "./"
        else buf
      buf ++ path
  let buf := if u.ForceQuery ∨ u.RawQuery ≠ "" then buf ++ "?" ++ u.RawQuery else buf
  if u.Fragment ≠ "" then buf ++ "#" ++ E.fragment u.Fragment u.RawFragment else buf

/-- One bit of the reflected CRC-32 shift register, polynomial `0xEDB88320`. -/
def crcBit (c : Nat) : Nat :=
  if c % 2 = 1 then (c / 2) ^^^ 0xEDB88320 else c / 2

/-- One byte of input: xor it into the low byte, then shift eight times. -/
def crcByte (c b : Nat) : Nat :=
  crcBit (crcBit (crcBit (crcBit (crcBit (crcBit (crcBit (crcBit (c ^^^ b))))))))

/-- Go's `crc32.ChecksumIEEE` on a byte sequence. -/
def ChecksumIEEE (bs : List Nat) : Nat :=
  (bs.foldl crcByte 0xFFFFFFFF) ^^^ 0xFFFFFFFF

/-- The bytes of a string, `[]byte(s)`. -/
def bytes (s : String) : List Nat :=
  (s.data.flatMap String.utf8EncodeChar).map UInt8.toNat

/-! ## `pagerank.go` -/

/-- `func urlsum(u url.URL) uint32`: clear `RawQuery`, checksum the string. -/
def urlsum (E : Escapers) (u : URL) : Nat :=
  let x := u
  let x := { x with RawQuery := "" }
  ChecksumIEEE (bytes (x.String E))

/-! ### Go maps as association lists -/

/-- `v, ok := m[k]`. -/
def lookup {κ V : Type} [DecidableEq κ] : List (κ × V) → κ → Option V
  | [], _ => none
  | (k', v) :: m, k => if k' = k then some v else lookup m k

/-- `m[k] = v`. -/
def assign {κ V : Type} [DecidableEq κ] : List (κ × V) → κ → V → List (κ × V)
  | [], k, v => [(k, v)]
  | (k', v') :: m, k, v => if k' = k then (k, v) :: m else (k', v') :: assign m k v

/-- A write through the pointer stored under `k`: `*m[k] = f(*m[k])`; nothing
happens when the key is absent (callers check that first). -/
def update {κ V : Type} [DecidableEq κ] : List (κ × V) → κ → (V → V) → List (κ × V)
  | [], _, _ => []
  | (k', v) :: m, k, f => if k' = k then (k', f v) :: m else (k', v) :: update m k f

/-- The keys of a map, in storage order. -/
def keys {κ V : Type} (m : List (κ × V)) : List κ :=
  m.map Prod.fst

/-- `type Page struct`. -/
structure Page (K : Type) where
  weight : K
  outbound : K
  addr : URL
deriving DecidableEq, Repr

/-- `func (p *Page) ID() uint32`. -/
def Page.ID {K : Type} (E : Escapers) (p : Page K) : Nat :=
  urlsum E p.addr

/-- `type Graph struct` without its mutex. -/
structure Graph (K : Type) where
  edges : List (Nat × List (Nat × K))
  nodes : List (Nat × Page K)
deriving DecidableEq, Repr

/-- `func NewGraph() *Graph`. -/
def NewGraph {K : Type} : Graph K :=
  { edges := [], nodes := [] }

/-- `func (g *Graph) Reset()`. -/
def Graph.Reset {K : Type} (g : Graph K) : Graph K :=
  { g with edges := [], nodes := [] }

/-- `func (g *Graph) Get(addr *url.URL) *Page`; `none` is the nil pointer. -/
def Graph.Get {K : Type} (E : Escapers) (g : Graph K) (addr : URL) : Option (Page K) :=
  let sum := urlsum E addr
  match lookup g.nodes sum with
  | none => none
  | some n => some n

/-- `func (g *Graph) Add(addr *url.URL)`. -/
def Graph.Add {K : Type} [Zero K] (E : Escapers) (g : Graph K) (addr : URL) : Graph K :=
  let a := addr
  let sum := urlsum E a
  match lookup g.nodes sum with
  | none => { g with nodes := assign g.nodes sum { weight := 0, outbound := 0, addr := a } }
  | some _ => g

/-- `func (g *Graph) Link(sourceURL, targetURL *url.URL, weight float64)`.
The statements are in the order of the source: `source.outbound += weight`
comes before the test of `target` and before the test for a self-loop.  The
two `+=` are the addition of the weight type `K`: exact in an ordered field,
rounded in `Float64`. -/
def Graph.Link {K : Type} [Zero K] [HAdd K K K] (E : Escapers) (g : Graph K)
    (sourceURL targetURL : URL) (weight : K) : Graph K :=
  match g.Get E sourceURL with
  | none => g
  | some source =>
    let g1 : Graph K :=
      { g with nodes := update g.nodes (urlsum E sourceURL)
                 (fun p => { p with outbound := p.outbound + weight }) }
    match g.Get E targetURL with
    | none => g1
    | some target =>
      if source.ID E = target.ID E then g1
      else
        let inner := (lookup g1.edges (source.ID E)).getD []
        let inner := assign inner (target.ID E) ((lookup inner (target.ID E)).getD 0 + weight)
        { g1 with edges := assign g1.edges (source.ID E) inner }

/-- How a call ends: it returns, it dereferences a nil pointer, or its loop has
not stopped within the number of iterations allowed. -/
inductive Outcome (α : Type) where
  | done (a : α)
  | panic
  | outOfFuel
deriving DecidableEq, Repr

/-- `Rank`, lines 126-132: divide every edge weight by the outbound total of
its source when that total is positive.  `g.nodes[source].outbound` on a
source that is not a node dereferences nil: `none`. -/
def normalize {K : Type} [LinearOrderedField K] (nodes : List (Nat × Page K)) :
    List (Nat × List (Nat × K)) → Option (List (Nat × List (Nat × K)))
  | [] => some []
  | (source, targets) :: rest =>
    match lookup nodes source with
    | none => none
    | some p =>
      let targets :=
        if p.outbound > 0 then targets.map (fun e => (e.1, e.2 / p.outbound)) else targets
      match normalize nodes rest with
      | none => none
      | some rest => some ((source, targets) :: rest)

/-- `Rank`, lines 134-136: every weight becomes `inverse`. -/
def initWeights {K : Type} (inverse : K) (nodes : List (Nat × Page K)) : List (Nat × Page K) :=
  nodes.map (fun e => (e.1, { e.2 with weight := inverse }))

/-- `Rank`, line 143: the local map `nodes` of the weights before the pass. -/
def snapshot {K : Type} (nodes : List (Nat × Page K)) : List (Nat × K) :=
  nodes.map (fun e => (e.1, e.2.weight))

/-- `Rank`, lines 145-147: the weight of the nodes whose outbound total is zero. -/
def leakOf {K : Type} [LinearOrderedField K] (nodes : List (Nat × Page K)) : K :=
  (nodes.map (fun e => if e.2.outbound = 0 then e.2.weight else 0)).sum

/-- `Rank`, line 149: every weight becomes zero. -/
def zeroWeights {K : Type} [LinearOrderedField K] (nodes : List (Nat × Page K)) :
    List (Nat × Page K) :=
  nodes.map (fun e => (e.1, { e.2 with weight := 0 }))

/-- `Rank`, lines 155-157: the inner loop over the edges of one source, whose
weight before the pass is `w`.  `g.nodes[target].weight` on a target that is
not a node dereferences nil: `none`. -/
def spread {K : Type} [LinearOrderedField K] (α w : K) :
    List (Nat × Page K) → List (Nat × K) → Option (List (Nat × Page K))
  | nodes, [] => some nodes
  | nodes, (target, weight) :: rest =>
    match lookup nodes target with
    | none => none
    | some _ =>
      spread α w (update nodes target (fun p => { p with weight := p.weight + α * w * weight }))
        rest

/-- `Rank`, lines 154-160: the loop over the sources. -/
def distribute {K : Type} [LinearOrderedField K] (α inverse leak : K)
    (edges : List (Nat × List (Nat × K))) (old : List (Nat × K)) :
    List (Nat × Page K) → List Nat → Option (List (Nat × Page K))
  | nodes, [] => some nodes
  | nodes, source :: rest =>
    match spread α ((lookup old source).getD 0) nodes ((lookup edges source).getD []) with
    | none => none
    | some nodes =>
      distribute α inverse leak edges old
        (update nodes source
          (fun p => { p with weight := p.weight + ((1 - α) * inverse + leak * inverse) }))
        rest

/-- `Rank`, lines 162-166: the sum of the absolute changes of weight. -/
def deltaOf {K : Type} [LinearOrderedField K] (old : List (Nat × K))
    (nodes : List (Nat × Page K)) : K :=
  (nodes.map (fun e => |e.2.weight - (lookup old e.1).getD 0|)).sum

/-- `Rank`, lines 139-166: one pass of the body of `for Δ > ε`; the result is
the graph after the pass and the new `Δ`. -/
def iteration {K : Type} [LinearOrderedField K] (α inverse : K) (g : Graph K) :
    Option (Graph K × K) :=
  let leak := leakOf g.nodes
  let nodes := snapshot g.nodes
  let leak := leak * α
  match distribute α inverse leak g.edges nodes (zeroWeights g.nodes) (keys g.nodes) with
  | none => none
  | some ns => some ({ g with nodes := ns }, deltaOf nodes ns)

/-- `Rank`, line 138: `for Δ > ε`, with at most `fuel` passes. -/
def rankLoop {K : Type} [LinearOrderedField K] (α ε inverse : K) :
    Nat → K → Graph K → Outcome (Graph K)
  | 0, Δ, g => if Δ > ε then Outcome.outOfFuel else Outcome.done g
  | fuel + 1, Δ, g =>
    if Δ > ε then
      match iteration α inverse g with
      | none => Outcome.panic
      | some r => rankLoop α ε inverse fuel r.2 r.1
    else Outcome.done g

/-- The state in which `Rank` enters its loop: edges normalised, weights `1/N`. -/
def rankStart {K : Type} [LinearOrderedField K] (g : Graph K) : Option (Graph K) :=
  let inverse := 1 / (g.nodes.length : K)
  match normalize g.nodes g.edges with
  | none => none
  | some edges => some { edges := edges, nodes := initWeights inverse g.nodes }

/-- `func (g *Graph) Rank(α, ε float64)`. -/
def Graph.Rank {K : Type} [LinearOrderedField K] (fuel : Nat) (g : Graph K) (α ε : K) :
    Outcome (Graph K) :=
  let Δ : K := 1
  let inverse := 1 / (g.nodes.length : K)
  match rankStart g with
  | none => Outcome.panic
  | some g0 => rankLoop α ε inverse fuel Δ g0

/-- One invocation of the callback of `Traverse`. -/
structure Visit (K : Type) where
  source : String
  target : String
  weight : K
deriving DecidableEq, Repr

/-- `Traverse`, lines 181-190: the loop over the edges of `source`, visited in
the order of the list.  `callee` is the recursive call; the `Bool` of a result
tells whether the call dereferenced nil. -/
def rangeEdges {K : Type} (E : Escapers) (g : Graph K)
    (callee : URL → List Nat → List (Visit K) × Bool) (source : Page K) (seen : List Nat) :
    List (Nat × K) → List (Visit K) × Bool
  | [] => ([], false)
  | (toId, weight) :: rest =>
    if toId ∈ seen then ([], false)
    else
      match lookup g.nodes toId with
      | none => ([], true)
      | some target =>
        let r := callee target.addr (seen ++ [source.ID E, toId])
        if r.2 then r
        else
          let r' := rangeEdges E g callee source seen rest
          (r.1 ++ [{ source := source.addr.String E, target := target.addr.String E,
                     weight := weight }] ++ r'.1, r'.2)

/-- `Traverse` by recursion on `depth` when it is positive.  `order seen id` is
the order in which this invocation's `range` visits the edges of node `id`. -/
def traverse {K : Type} (E : Escapers) (g : Graph K) (order : List Nat → Nat → List (Nat × K)) :
    Nat → URL → List Nat → List (Visit K) × Bool
  | 0, _, _ => ([], false)
  | depth + 1, u, seen =>
    match g.Get E u with
    | none => ([], false)
    | some source =>
      rangeEdges E g (traverse E g order depth) source seen (order seen (source.ID E))

/-- `func (g *Graph) Traverse(u url.URL, seen []uint32, depth int, callback ...)`:
the callbacks made, in order, and whether the call dereferenced nil. -/
def Graph.Traverse {K : Type} (E : Escapers) (g : Graph K)
    (order : List Nat → Nat → List (Nat × K)) (u : URL) (seen : List Nat) (depth : Int) :
    List (Visit K) × Bool :=
  if depth ≤ 0 then ([], false) else traverse E g order depth.toNat u seen

/-- An iteration order of the edge maps: every `range` visits each entry of
the map once. -/
def IterationOrder {K : Type} (g : Graph K) (order : List Nat → Nat → List (Nat × K)) : Prop :=
  ∀ seen id, (order seen id).Perm ((lookup g.edges id).getD [])

/-- The order in which the maps are stored. -/
def storedOrder {K : Type} (g : Graph K) : List Nat → Nat → List (Nat × K) :=
  fun _ id => (lookup g.edges id).getD []

/-! ## The robots cache of `crawler.go` -/

/-- `type robots struct` without its mutex; `byHost` is its map `robots`, `R` is
`robotstxt.RobotsData` and `none` as a value is the nil pointer. -/
structure robots (R : Type) where
  byHost : List (String × Option R)

/-- What `robotstxt.FromResponse` returns: the data pointer and whether the
error is non-nil. -/
structure Parsed (R : Type) where
  data : Option R
  failed : Bool

/-- `func (r *robots) FromResponse(res *http.Response)`: the error is assigned
to the blank identifier, the pointer is stored under the host. -/
def robots.FromResponse {R : Type} (r : robots R) (host : String) (res : Parsed R) : robots R :=
  { r with byHost := assign r.byHost host res.data }

/-- `func (r *robots) Test(u *url.URL) bool`; `TestAgent` reads a field of its
receiver, so a nil receiver is a nil dereference: `none`. -/
def robots.Test {R : Type} (TestAgent : R → String → Bool) (r : robots R)
    (host path : String) : Option Bool :=
  match lookup r.byHost host with
  | none => some true
  | some d =>
    match d with
    | none => none
    | some d => some (TestAgent d path)

/-! ## Predicates and sample data used in the statements -/

/-- The two URLs agree in every field except `RawQuery`. -/
def URL.sameButQuery (u v : URL) : Prop :=
  { u with RawQuery := "" } = { v with RawQuery := "" }

/-- The two URLs agree in every field except `Fragment` and `RawFragment`. -/
def URL.sameButFragment (u v : URL) : Prop :=
  { u with Fragment := "", RawFragment := "" } = { v with Fragment := "", RawFragment := "" }

/-- `Index`, line 302 of `crawler.go`: `x.Fragment = ""`. -/
def stripFragment (x : URL) : URL :=
  { x with Fragment := "" }

/-- The URL `https://a.test<path>?<query>#<fragment>` as `url.Parse` returns it. -/
def sampleURL (path query fragment : String) : URL :=
  { Scheme := "https", Opaque := "", User := none, Host := "a.test", Path := path,
    RawPath := "", OmitHost := false, ForceQuery := false, RawQuery := query,
    Fragment := fragment, RawFragment := "" }

/-- `g.edges[a][b]` with its presence flag. -/
def Graph.edge {K : Type} (g : Graph K) (a b : Nat) : Option K :=
  match lookup g.edges a with
  | none => none
  | some m => lookup m b

/-- The weight of node `k`, zero when `k` is not a node. -/
def weightAt {K : Type} [LinearOrderedField K] (nodes : List (Nat × Page K)) (k : Nat) : K :=
  match lookup nodes k with
  | none => 0
  | some p => p.weight

/-- The sum of the weights of all nodes. -/
def totalWeight {K : Type} [LinearOrderedField K] (nodes : List (Nat × Page K)) : K :=
  (nodes.map (fun e => e.2.weight)).sum

/-- What every graph made by the package satisfies: no map has a key twice,
every node is stored under the id of its address, and every edge joins two
nodes with different ids. -/
structure Sound {K : Type} (E : Escapers) (g : Graph K) : Prop where
  nodesNodup : (keys g.nodes).Nodup
  edgesNodup : (keys g.edges).Nodup
  innerNodup : ∀ s m, (s, m) ∈ g.edges → (keys m).Nodup
  canonical : ∀ k p, (k, p) ∈ g.nodes → p.ID E = k
  sourceNode : ∀ s m, (s, m) ∈ g.edges → s ∈ keys g.nodes
  targetNode : ∀ s m t, (s, m) ∈ g.edges → t ∈ keys m → t ∈ keys g.nodes
  noLoop : ∀ s m t, (s, m) ∈ g.edges → t ∈ keys m → t ≠ s

/-- The graphs that the exported operations make from `NewGraph`. -/
inductive Reachable {K : Type} [LinearOrderedField K] (E : Escapers) : Graph K → Prop where
  | new : Reachable E NewGraph
  | reset (g : Graph K) : Reachable E g → Reachable E g.Reset
  | add (g : Graph K) (u : URL) : Reachable E g → Reachable E (g.Add E u)
  | link (g : Graph K) (s t : URL) (w : K) : Reachable E g → Reachable E (g.Link E s t w)
  | rank (g g' : Graph K) (fuel : Nat) (α ε : K) :
      Reachable E g → g.Rank fuel α ε = Outcome.done g' → Reachable E g'

/-- A node map without the rank weights: keys, outbound totals and addresses. -/
def frame {K : Type} (nodes : List (Nat × Page K)) : List (Nat × K × URL) :=
  nodes.map (fun e => (e.1, e.2.outbound, e.2.addr))

/-- An edge map without the weights: each source with the ids of its targets. -/
def edgeFrame {K : Type} (edges : List (Nat × List (Nat × K))) : List (Nat × List Nat) :=
  edges.map (fun e => (e.1, keys e.2))

/-- The graph after `Add(https://a.test/a)` and `Add(https://a.test/b)`. -/
def twoNodes : Graph ℚ :=
  ((NewGraph : Graph ℚ).Add plainEscapers (sampleURL "/a" "" "")).Add plainEscapers
    (sampleURL "/b" "" "")

/-- Every target of every edge map is a node. -/
def Closed {K : Type} (g : Graph K) : Prop :=
  ∀ s t, t ∈ keys ((lookup g.edges s).getD []) → t ∈ keys g.nodes

/-- A path of the graph: each id is joined to the next by a stored edge. -/
def IsPath {K : Type} (g : Graph K) (path : List Nat) : Prop :=
  List.Chain' (fun x y => ∃ w, g.edge x y = some w) path

/-- The callback `v` is made for the last edge `a → b` of a path that starts at
`start`, has at most `n` edges, visits no node twice and, after `start`, no
node of `seen`. -/
def Justified {K : Type} (E : Escapers) (g : Graph K) (start : Nat) (seen : List Nat) (n : Nat)
    (v : Visit K) : Prop :=
  ∃ (path : List Nat) (a b : Nat) (pa pb : Page K),
    path.head? = some start ∧ [a, b] <:+ path ∧ IsPath g path ∧ path.Nodup ∧
      (∀ x ∈ path.tail, x ∉ seen) ∧ path.length ≤ n + 1 ∧
      lookup g.nodes a = some pa ∧ lookup g.nodes b = some pb ∧
      v.source = pa.addr.String E ∧ v.target = pb.addr.String E ∧ g.edge a b = some v.weight

/-- The graph `twoNodes` after `Link(https://a.test/a, https://a.test/b, 1)`. -/
def linkedPair : Graph ℚ :=
  twoNodes.Link plainEscapers (sampleURL "/a" "" "") (sampleURL "/b" "" "") 1

/-- The outbound total of node `s`, zero when `s` is not a node. -/
def outboundAt {K : Type} [LinearOrderedField K] (nodes : List (Nat × Page K)) (s : Nat) : K :=
  match lookup nodes s with
  | none => 0
  | some p => p.outbound

/-- The sum of the weights of the edges stored for source `s`. -/
def rowSum {K : Type} [LinearOrderedField K] (edges : List (Nat × List (Nat × K))) (s : Nat) : K :=
  (((lookup edges s).getD []).map Prod.snd).sum

/-- The share of the weight of `s` that one pass of `Rank` moves to `k`: `α`
times the weight of the edge `s → k`, and `α * inverse` when the outbound total
of `s` is zero. -/
def transfer {K : Type} [LinearOrderedField K] (α inverse : K) (g : Graph K) (k s : Nat) : K :=
  α * (((lookup g.edges s).getD []).map (fun e => if e.1 = k then e.2 else 0)).sum +
    (if outboundAt g.nodes s = 0 then α * inverse else 0)

/-- The graphs made from `NewGraph` by `Add` and by `Link` with non-negative
weights. -/
inductive Built {K : Type} [LinearOrderedField K] (E : Escapers) : Graph K → Prop where
  | new : Built E NewGraph
  | add (g : Graph K) (u : URL) : Built E g → Built E (g.Add E u)
  | link (g : Graph K) (s t : URL) (w : K) : 0 ≤ w → Built E g → Built E (g.Link E s t w)

/-- Every outbound total is the sum of the weights of the edges of its node:
no `Link` has raised an outbound total without storing an edge. -/
def Balanced {K : Type} [LinearOrderedField K] (g : Graph K) : Prop :=
  ∀ s, s ∈ keys g.nodes → outboundAt g.nodes s = rowSum g.edges s

/-- The state of the loop of `Rank` after `n` passes, with the value of `Δ`;
`start` is the state in which the loop is entered, with `Δ = 1`. -/
def passes {K : Type} [LinearOrderedField K] (α inverse : K) (start : Graph K × K) :
    Nat → Option (Graph K × K)
  | 0 => some start
  | n + 1 =>
    match passes α inverse start n with
    | none => none
    | some r => iteration α inverse r.1

/-- The graph that a call returned, if it returned. -/
def Outcome.result {α : Type} : Outcome α → Option α
  | Outcome.done a => some a
  | Outcome.panic => none
  | Outcome.outOfFuel => none

/-- What the loop of `Rank` relies on: distinct node keys, edges that end at
nodes, `N * inverse = 1`, non-negative edge weights, and for every node a sum
of edge weights that is at most one, and zero when its outbound total is zero. -/
structure Substochastic {K : Type} [LinearOrderedField K] (inverse : K) (g : Graph K) : Prop where
  nodup : (keys g.nodes).Nodup
  closed : Closed g
  unit : (g.nodes.length : K) * inverse = 1
  inverse_nonneg : 0 ≤ inverse
  weight_nonneg : ∀ s e, e ∈ (lookup g.edges s).getD [] → 0 ≤ e.2
  column : ∀ s, s ∈ keys g.nodes →
    rowSum g.edges s + (if outboundAt g.nodes s = 0 then 1 else 0) ≤ 1

/-- No weight is lost: for every node the edge weights sum to one, or to zero
when its outbound total is zero. -/
def Lossless {K : Type} [LinearOrderedField K] (g : Graph K) : Prop :=
  ∀ s, s ∈ keys g.nodes →
    rowSum g.edges s + (if outboundAt g.nodes s = 0 then 1 else 0) = 1

/-- The graph `twoNodes` after `Link(https://a.test/a, https://a.test/c, 1)`,
where `https://a.test/c` is not a node. -/
def rejectedLink : Graph ℚ :=
  twoNodes.Link plainEscapers (sampleURL "/a" "" "") (sampleURL "/c" "" "") 1

/-- The graph `twoNodes` after `Link(https://a.test/a, https://a.test/b, -1)`. -/
def negativeLink : Graph ℚ :=
  twoNodes.Link plainEscapers (sampleURL "/a" "" "") (sampleURL "/b" "" "") (-1)

/-! ## `float64` addition -/

/-- A finite `float64`, given by its exact value. -/
structure Float64 where
  val : ℚ
deriving DecidableEq, Repr

/-- With `fuel ≥ n`, the number of halvings that bring `n` below 2. -/
def bitsBelow : Nat → Nat → Nat
  | 0, _ => 0
  | fuel + 1, n => if n < 2 then 0 else bitsBelow fuel (n / 2) + 1

/-- The integer part of the binary logarithm of `n`; zero for `n = 0`. -/
def floorLog2 (n : Nat) : Nat :=
  bitsBelow n n

/-- The integer `e` with `2 ^ e ≤ n / d < 2 ^ (e + 1)`, for positive `n` and `d`. -/
def binaryExponent (n d : Nat) : Int :=
  let k : Int := (floorLog2 n : Int) - (floorLog2 d : Int)
  if d * 2 ^ k.toNat ≤ n * 2 ^ (-k).toNat then k else k - 1

/-- IEEE 754 rounding of a real to `float64`, to nearest with ties to even: the
value is scaled so that its integer part has 53 bits, rounded to an integer and
scaled back.  This is the rounding of every result whose magnitude lies in the
normal range, from `2 ^ (-1022)` up to the largest finite `float64`; subnormal
results, overflow, infinities and NaN are outside the model. -/
def round64 (q : ℚ) : ℚ :=
  if q = 0 then 0
  else
    let n := q.num.natAbs
    let d := q.den
    let sh : Int := 52 - binaryExponent n d
    let N := n * 2 ^ sh.toNat
    let D := d * 2 ^ (-sh).toNat
    let m0 := N / D
    let m :=
      if 2 * (N % D) < D then m0
      else if D < 2 * (N % D) then m0 + 1
      else if m0 % 2 = 0 then m0 else m0 + 1
    let mag : ℚ := ((m * 2 ^ (-sh).toNat : Nat) : ℚ) / ((2 ^ sh.toNat : Nat) : ℚ)
    if q < 0 then -mag else mag

/-- The `float64` zero. -/
def float64Zero : Zero Float64 :=
  ⟨⟨0⟩⟩

/-- The `float64` `+`: the exact sum, rounded once. -/
def float64Add : HAdd Float64 Float64 Float64 :=
  ⟨fun x y => ⟨round64 (x.val + y.val)⟩⟩

/-- `Add` on a graph whose weights are `float64`. -/
def Graph.Add64 (g : Graph Float64) (addr : URL) : Graph Float64 :=
  @Graph.Add Float64 float64Zero plainEscapers g addr

/-- `Link` on a graph whose weights are `float64`. -/
def Graph.Link64 (g : Graph Float64) (sourceURL targetURL : URL) (weight : Float64) :
    Graph Float64 :=
  @Graph.Link Float64 float64Zero float64Add plainEscapers g sourceURL targetURL weight

/-- The `float64` nearest to `0.1`, the weight `1/float64(10)` that `Index` gives
to each link of a page with ten links. -/
def tenth : Float64 :=
  ⟨3602879701896397 / 36028797018963968⟩

/-- The graph after `Add(https://a.test/a)` and `Add(https://a.test/b)`, with
`float64` weights. -/
def twoNodes64 : Graph Float64 :=
  ((NewGraph : Graph Float64).Add64 (sampleURL "/a" "" "")).Add64 (sampleURL "/b" "" "")

/-- The two URLs agree in every field except those that hold the query string,
`RawQuery` and `ForceQuery` (the bare trailing `?`). -/
def URL.sameButQueryString (u v : URL) : Prop :=
  { u with RawQuery := "", ForceQuery := false } = { v with RawQuery := "", ForceQuery := false }

/-- The URL `https://a.test/x?` as `url.Parse` returns it: an empty query and
`ForceQuery` set. -/
def bareQueryURL : URL :=
  { sampleURL "/x" "" "" with ForceQuery := true }

/-! ## Lemmas on maps -/

theorem mem_keys_of_mem {κ V : Type} (m : List (κ × V)) (k : κ) (v : V) (h : (k, v) ∈ m) :
    k ∈ keys m := by
  simp only [keys, List.mem_map]
  exact ⟨(k, v), h, rfl⟩

section Maps

variable {κ V : Type} [DecidableEq κ]

theorem lookup_assign_self (m : List (κ × V)) (k : κ) (v : V) :
    lookup (assign m k v) k = some v := by
  induction m with
  | nil => simp [assign, lookup]
  | cons e m ih =>
    obtain ⟨k', v'⟩ := e
    by_cases h : k' = k
    · simp [assign, lookup, h]
    · simp [assign, lookup, h, ih]

theorem lookup_assign_ne (m : List (κ × V)) (k k' : κ) (v : V) (h : k' ≠ k) :
    lookup (assign m k v) k' = lookup m k' := by
  induction m with
  | nil => simp [assign, lookup, Ne.symm h]
  | cons e m ih =>
    obtain ⟨k₀, v₀⟩ := e
    by_cases h₀ : k₀ = k
    · subst h₀
      simp [assign, lookup, Ne.symm h]
    · by_cases h₁ : k₀ = k'
      · subst h₁
        simp [assign, lookup, h₀]
      · simp [assign, lookup, h₀, h₁, ih]

theorem lookup_eq_none_iff (m : List (κ × V)) (k : κ) :
    lookup m k = none ↔ k ∉ keys m := by
  induction m with
  | nil => simp [lookup, keys]
  | cons e m ih =>
    obtain ⟨k', v'⟩ := e
    by_cases h : k' = k
    · simp [lookup, keys, h]
    · have ih' : lookup m k = none ↔ k ∉ List.map Prod.fst m := ih
      simp [lookup, keys, h, ih', Ne.symm h]

theorem lookup_isSome_iff (m : List (κ × V)) (k : κ) :
    (∃ v, lookup m k = some v) ↔ k ∈ keys m := by
  have h := lookup_eq_none_iff m k
  cases hl : lookup m k with
  | none => simp [hl] at h ⊢; exact h
  | some v => simp [hl] at h ⊢; exact h

theorem mem_of_lookup (m : List (κ × V)) (k : κ) (v : V) (h : lookup m k = some v) :
    (k, v) ∈ m := by
  induction m with
  | nil => simp [lookup] at h
  | cons e m ih =>
    obtain ⟨k', v'⟩ := e
    by_cases hk : k' = k
    · simp [lookup, hk] at h
      simp [hk, h]
    · simp [lookup, hk] at h
      exact List.mem_cons_of_mem _ (ih h)

theorem lookup_of_mem (m : List (κ × V)) (hm : (keys m).Nodup) (k : κ) (v : V)
    (h : (k, v) ∈ m) : lookup m k = some v := by
  induction m with
  | nil => simp at h
  | cons e m ih =>
    obtain ⟨k', v'⟩ := e
    simp only [keys, List.map_cons, List.nodup_cons] at hm
    rcases List.mem_cons.mp h with h | h
    · simp only [Prod.mk.injEq] at h
      simp [lookup, h.1, h.2]
    · have hne : k' ≠ k := by
        intro hk
        subst hk
        exact hm.1 (mem_keys_of_mem m k' v h)
      simp only [lookup, hne, if_false]
      exact ih hm.2 h

theorem keys_update (m : List (κ × V)) (k : κ) (f : V → V) : keys (update m k f) = keys m := by
  induction m with
  | nil => simp [update]
  | cons e m ih =>
    obtain ⟨k', v'⟩ := e
    by_cases h : k' = k
    · simp [update, keys, h]
    · have ih' : List.map Prod.fst (update m k f) = List.map Prod.fst m := ih
      simp [update, keys, h, ih']

theorem length_update (m : List (κ × V)) (k : κ) (f : V → V) :
    (update m k f).length = m.length := by
  have h := congrArg List.length (keys_update m k f)
  simpa [keys] using h

theorem lookup_update_self (m : List (κ × V)) (k : κ) (f : V → V) :
    lookup (update m k f) k = (lookup m k).map f := by
  induction m with
  | nil => simp [update, lookup]
  | cons e m ih =>
    obtain ⟨k', v'⟩ := e
    by_cases h : k' = k
    · simp [update, lookup, h]
    · simp [update, lookup, h, ih]

theorem lookup_update_ne (m : List (κ × V)) (k k' : κ) (f : V → V) (h : k' ≠ k) :
    lookup (update m k f) k' = lookup m k' := by
  induction m with
  | nil => simp [update, lookup]
  | cons e m ih =>
    obtain ⟨k₀, v₀⟩ := e
    by_cases h₀ : k₀ = k
    · subst h₀
      simp [update, lookup, Ne.symm h]
    · by_cases h₁ : k₀ = k'
      · subst h₁
        simp [update, lookup, h₀]
      · simp [update, lookup, h₀, h₁, ih]

theorem keys_assign_of_mem (m : List (κ × V)) (k : κ) (v : V) (h : k ∈ keys m) :
    keys (assign m k v) = keys m := by
  induction m with
  | nil => simp [keys] at h
  | cons e m ih =>
    obtain ⟨k', v'⟩ := e
    by_cases hk : k' = k
    · simp [assign, keys, hk]
    · have h' : k ∈ keys m := by
        simp only [keys, List.map_cons, List.mem_cons] at h
        rcases h with h | h
        · exact absurd h.symm hk
        · exact h
      have ih' : List.map Prod.fst (assign m k v) = List.map Prod.fst m := ih h'
      simp [assign, keys, hk, ih']

theorem keys_assign_of_not_mem (m : List (κ × V)) (k : κ) (v : V) (h : k ∉ keys m) :
    keys (assign m k v) = keys m ++ [k] := by
  induction m with
  | nil => simp [assign, keys]
  | cons e m ih =>
    obtain ⟨k', v'⟩ := e
    simp only [keys, List.map_cons, List.mem_cons, not_or] at h
    have ih' : List.map Prod.fst (assign m k v) = List.map Prod.fst m ++ [k] := ih h.2
    simp [assign, keys, Ne.symm h.1, ih']

theorem mem_keys_assign (m : List (κ × V)) (k k' : κ) (v : V) :
    k' ∈ keys (assign m k v) ↔ k' ∈ keys m ∨ k' = k := by
  by_cases h : k ∈ keys m
  · rw [keys_assign_of_mem m k v h]
    constructor
    · intro h'
      exact Or.inl h'
    · rintro (h' | h')
      · exact h'
      · exact h' ▸ h
  · rw [keys_assign_of_not_mem m k v h]
    simp

theorem nodup_keys_assign (m : List (κ × V)) (k : κ) (v : V) (h : (keys m).Nodup) :
    (keys (assign m k v)).Nodup := by
  by_cases hk : k ∈ keys m
  · rw [keys_assign_of_mem m k v hk]
    exact h
  · rw [keys_assign_of_not_mem m k v hk]
    exact List.Nodup.append h (List.nodup_singleton k) (by simpa using hk)

theorem mem_assign (m : List (κ × V)) (k : κ) (v : V) (e : κ × V) (h : e ∈ assign m k v) :
    e = (k, v) ∨ e ∈ m := by
  induction m with
  | nil => simpa [assign] using h
  | cons e₀ m ih =>
    obtain ⟨k', v'⟩ := e₀
    by_cases hk : k' = k
    · simp only [assign, hk, if_true, List.mem_cons] at h
      rcases h with h | h
      · exact Or.inl h
      · exact Or.inr (List.mem_cons_of_mem _ h)
    · simp only [assign, hk, if_false, List.mem_cons] at h
      rcases h with h | h
      · right
        subst h
        exact List.mem_cons_self _ _
      · rcases ih h with h' | h'
        · exact Or.inl h'
        · exact Or.inr (List.mem_cons_of_mem _ h')

theorem mem_update (m : List (κ × V)) (k : κ) (f : V → V) (e : κ × V) (h : e ∈ update m k f) :
    e ∈ m ∨ ∃ v, (k, v) ∈ m ∧ e = (k, f v) := by
  induction m with
  | nil => simp [update] at h
  | cons e₀ m ih =>
    obtain ⟨k', v'⟩ := e₀
    by_cases hk : k' = k
    · simp only [update, hk, if_true, List.mem_cons] at h
      rcases h with h | h
      · exact Or.inr ⟨v', by simp [hk], h⟩
      · exact Or.inl (List.mem_cons_of_mem _ h)
    · simp only [update, hk, if_false, List.mem_cons] at h
      rcases h with h | h
      · left
        subst h
        exact List.mem_cons_self _ _
      · rcases ih h with h' | ⟨v, hv, he⟩
        · exact Or.inl (List.mem_cons_of_mem _ h')
        · exact Or.inr ⟨v, List.mem_cons_of_mem _ hv, he⟩

end Maps

/-! ## `urlsum`, `Get` and `Add` -/

section Identity

variable {K : Type} [Zero K] [HAdd K K K]

theorem urlsum_eq_of_sameButQuery (E : Escapers) (u v : URL) (h : u.sameButQuery v) :
    urlsum E u = urlsum E v := by
  unfold URL.sameButQuery at h
  unfold urlsum
  simp only [h]

theorem Get_eq_lookup (E : Escapers) (g : Graph K) (u : URL) :
    g.Get E u = lookup g.nodes (urlsum E u) := by
  cases h : lookup g.nodes (urlsum E u) <;> simp [Graph.Get, h]

theorem Add_nodes_of_absent (E : Escapers) (g : Graph K) (u : URL)
    (h : lookup g.nodes (urlsum E u) = none) :
    g.Add E u =
      { g with nodes := assign g.nodes (urlsum E u) { weight := 0, outbound := 0, addr := u } } := by
  simp [Graph.Add, h]

theorem Add_of_present (E : Escapers) (g : Graph K) (u : URL) (p : Page K)
    (h : lookup g.nodes (urlsum E u) = some p) : g.Add E u = g := by
  simp [Graph.Add, h]

theorem Add_edges (E : Escapers) (g : Graph K) (u : URL) : (g.Add E u).edges = g.edges := by
  cases h : lookup g.nodes (urlsum E u) <;> simp [Graph.Add, h]

theorem Add_present (E : Escapers) (g : Graph K) (u : URL) :
    ∃ p : Page K, lookup (g.Add E u).nodes (urlsum E u) = some p := by
  cases h : lookup g.nodes (urlsum E u) with
  | none =>
    rw [Add_nodes_of_absent E g u h]
    exact ⟨_, lookup_assign_self _ _ _⟩
  | some p =>
    rw [Add_of_present E g u p h]
    exact ⟨p, h⟩

end Identity

/-! ## Canonical identity (C3, C4) -/

section Canonical

variable {K : Type} [LinearOrderedField K]

set_option maxRecDepth 100000 in
/-- C3, as stated, fails: `https://a.test/x?` and `https://a.test/x?q=1` differ
only in the query string, the first having an empty one that `url.Parse`
records as `ForceQuery`.  `urlsum` clears `RawQuery` and leaves `ForceQuery`, so
the strings it checksums are `https://a.test/x?` and `https://a.test/x`, the
ids are 3159624386 and 1038330024, and `Add` makes two nodes of the pair. -/
theorem urlsum_depends_on_bare_query :
    bareQueryURL.sameButQueryString (sampleURL "/x" "q=1" "") ∧
      bareQueryURL.String plainEscapers = "https://a.test/x?" ∧
      (sampleURL "/x" "q=1" "").String plainEscapers = "https://a.test/x?q=1" ∧
      urlsum plainEscapers bareQueryURL = 3159624386 ∧
      urlsum plainEscapers (sampleURL "/x" "q=1" "") = 1038330024 ∧
      (((NewGraph : Graph ℚ).Add plainEscapers bareQueryURL).Add plainEscapers
          (sampleURL "/x" "q=1" "")).nodes.length = 2 := by
  refine ⟨rfl, by decide, by decide, by decide, by decide, by decide⟩

/-- C3, amended: two URLs that agree in every field of `url.URL` except
`RawQuery`, so with the same `ForceQuery`, get the same id from `urlsum`, and
`Add` with the second after `Add` with the first changes nothing: the graph
(node count, the node's URL, rank weight and outbound total, the edges) is the
one after the first `Add`, both URLs look up the same node, and that node
exists. -/
theorem Add_idempotent_up_to_query (E : Escapers) (g : Graph K) (u v : URL)
    (h : u.sameButQuery v) :
    urlsum E u = urlsum E v ∧
      (g.Add E u).Add E v = g.Add E u ∧
      ((g.Add E u).Add E v).nodes.length = (g.Add E u).nodes.length ∧
      ((g.Add E u).Add E v).Get E v = (g.Add E u).Get E u ∧
      ∃ p : Page K, (g.Add E u).Get E u = some p := by
  have hs : urlsum E u = urlsum E v := urlsum_eq_of_sameButQuery E u v h
  obtain ⟨p, hp⟩ := Add_present E g u
  have hadd : (g.Add E u).Add E v = g.Add E u :=
    Add_of_present E (g.Add E u) v p (hs ▸ hp)
  refine ⟨hs, hadd, by rw [hadd], ?_, p, ?_⟩
  · rw [hadd, Get_eq_lookup, Get_eq_lookup, hs]
  · rw [Get_eq_lookup]
    exact hp

/-- The amended C3 at `https://a.test/x?q=1` and `https://a.test/x?q=2` on the
empty graph. -/
theorem Add_idempotent_up_to_query_witness :
    (sampleURL "/x" "q=1" "").sameButQuery (sampleURL "/x" "q=2" "") ∧
      urlsum plainEscapers (sampleURL "/x" "q=1" "") =
        urlsum plainEscapers (sampleURL "/x" "q=2" "") ∧
      (((NewGraph : Graph ℚ).Add plainEscapers (sampleURL "/x" "q=1" "")).Add plainEscapers
          (sampleURL "/x" "q=2" "")).nodes.length = 1 :=
  ⟨rfl,
    (Add_idempotent_up_to_query plainEscapers (NewGraph : Graph ℚ) (sampleURL "/x" "q=1" "")
      (sampleURL "/x" "q=2" "") rfl).1,
    ((Add_idempotent_up_to_query plainEscapers (NewGraph : Graph ℚ) (sampleURL "/x" "q=1" "")
      (sampleURL "/x" "q=2" "") rfl).2.2.1).trans rfl⟩

set_option maxRecDepth 100000 in
/-- C4, as stated, fails: `https://a.test/x#a` and `https://a.test/x#b` differ
only in their fragment, `urlsum` gives them the ids 2065044616 and 3793700146,
and `Add` makes two nodes of them. -/
theorem urlsum_depends_on_fragment :
    (sampleURL "/x" "" "a").sameButFragment (sampleURL "/x" "" "b") ∧
      urlsum plainEscapers (sampleURL "/x" "" "a") = 2065044616 ∧
      urlsum plainEscapers (sampleURL "/x" "" "b") = 3793700146 ∧
      (((NewGraph : Graph ℚ).Add plainEscapers (sampleURL "/x" "" "a")).Add plainEscapers
          (sampleURL "/x" "" "b")).nodes.length = 2 := by
  refine ⟨rfl, by decide, by decide, by decide⟩

theorem String_stripFragment_eq (E : Escapers) (u v : URL) (h : u.sameButFragment v) :
    URL.String E { stripFragment u with RawQuery := "" } =
      URL.String E { stripFragment v with RawQuery := "" } := by
  obtain ⟨s₁, o₁, us₁, h₁, p₁, rp₁, oh₁, fq₁, q₁, f₁, rf₁⟩ := u
  obtain ⟨s₂, o₂, us₂, h₂, p₂, rp₂, oh₂, fq₂, q₂, f₂, rf₂⟩ := v
  simp only [URL.sameButFragment, URL.mk.injEq] at h
  obtain ⟨rfl, rfl, rfl, rfl, rfl, rfl, rfl, rfl, -, -, -⟩ := h
  simp [URL.String, stripFragment]

/-- C4, amended: `urlsum` keeps the fragment in the string it checksums, so
the id is independent of the fragment only once the fragment has been cleared,
as `Index` does for every discovered link before `Crawl` and `Link`: two URLs
that differ only in their fragment then get the same id, and `Get` and `Add`
treat them as the same page. -/
theorem urlsum_stripFragment_eq (E : Escapers) (g : Graph K) (u v : URL)
    (h : u.sameButFragment v) :
    urlsum E (stripFragment u) = urlsum E (stripFragment v) ∧
      (g.Add E (stripFragment u)).Add E (stripFragment v) = g.Add E (stripFragment u) ∧
      (g.Add E (stripFragment u)).Get E (stripFragment v) =
        (g.Add E (stripFragment u)).Get E (stripFragment u) := by
  have hs : urlsum E (stripFragment u) = urlsum E (stripFragment v) := by
    unfold urlsum
    simp only [String_stripFragment_eq E u v h]
  obtain ⟨p, hp⟩ := Add_present E g (stripFragment u)
  refine ⟨hs, Add_of_present E _ _ p (hs ▸ hp), ?_⟩
  rw [Get_eq_lookup, Get_eq_lookup, hs]

/-- The amended C4 at `https://a.test/x#a` and `https://a.test/x#b`. -/
theorem urlsum_stripFragment_eq_witness :
    (sampleURL "/x" "" "a").sameButFragment (sampleURL "/x" "" "b") ∧
      urlsum plainEscapers (stripFragment (sampleURL "/x" "" "a")) =
        urlsum plainEscapers (stripFragment (sampleURL "/x" "" "b")) :=
  ⟨rfl,
    (urlsum_stripFragment_eq plainEscapers (NewGraph : Graph ℚ) (sampleURL "/x" "" "a")
      (sampleURL "/x" "" "b") rfl).1⟩

end Canonical

/-! ## `Link` on a missing endpoint or a self-loop (C1) -/

set_option maxRecDepth 100000 in
/-- C1 fails on the code: on the graph whose only node is `https://a.test/a`
(outbound total 0), `Link(a, c, 1)` with `c` not a node leaves the outbound
total of `a` at 1, and so does the self-loop `Link(a, a, 1)`; only the case of
a missing source is a no-op.  `source.outbound += weight` runs before the
target is tested. -/
theorem Link_rejected_still_raises_outbound :
    ((NewGraph : Graph ℚ).Add plainEscapers (sampleURL "/a" "" "")).Get plainEscapers
        (sampleURL "/c" "" "") = none ∧
      (((NewGraph : Graph ℚ).Add plainEscapers (sampleURL "/a" "" "")).Get plainEscapers
        (sampleURL "/a" "" "")).map Page.outbound = some 0 ∧
      ((((NewGraph : Graph ℚ).Add plainEscapers (sampleURL "/a" "" "")).Link plainEscapers
        (sampleURL "/a" "" "") (sampleURL "/c" "" "") 1).Get plainEscapers
        (sampleURL "/a" "" "")).map Page.outbound = some 1 ∧
      ((((NewGraph : Graph ℚ).Add plainEscapers (sampleURL "/a" "" "")).Link plainEscapers
        (sampleURL "/a" "" "") (sampleURL "/a" "" "") 1).Get plainEscapers
        (sampleURL "/a" "" "")).map Page.outbound = some 1 ∧
      ((NewGraph : Graph ℚ).Add plainEscapers (sampleURL "/a" "" "")).Link plainEscapers
        (sampleURL "/c" "" "") (sampleURL "/a" "" "") 1 =
        (NewGraph : Graph ℚ).Add plainEscapers (sampleURL "/a" "" "") := by
  refine ⟨by decide!, by decide!, by decide!, by decide!, by decide!⟩

/-! ## The robots cache after a failed parse (C8) -/

/-- C8 fails on the code: `FromResponse` stores the pointer that the parser
returned whether or not it failed.  After a failed parse (nil data) a host
without an entry has the entry nil, so `Test` dereferences nil where it
returned true before; and a host with a stored ruleset has lost it. -/
theorem FromResponse_failed_parse_overwrites (R : Type) (TestAgent : R → String → Bool)
    (d : R) :
    lookup ({ byHost := [] } : robots R).byHost "a.test" = none ∧
      robots.Test TestAgent { byHost := [] } "a.test" "/" = some true ∧
      lookup (robots.FromResponse ({ byHost := [] } : robots R) "a.test"
        { data := none, failed := true }).byHost "a.test" = some none ∧
      robots.Test TestAgent
        (robots.FromResponse { byHost := [] } "a.test" { data := none, failed := true })
        "a.test" "/" = none ∧
      lookup ({ byHost := [("a.test", some d)] } : robots R).byHost "a.test" = some (some d) ∧
      lookup (robots.FromResponse ({ byHost := [("a.test", some d)] } : robots R) "a.test"
        { data := none, failed := true }).byHost "a.test" = some none := by
  simp [robots.FromResponse, robots.Test, lookup, assign]

/-! ## The invariant of the graph -/

section Invariant

variable {K : Type} [Zero K] [HAdd K K K]

theorem Sound_NewGraph (E : Escapers) : Sound E (NewGraph : Graph K) := by
  constructor <;> simp [NewGraph, keys]

theorem Sound_Reset (E : Escapers) (g : Graph K) : Sound E g.Reset := by
  constructor <;> simp [Graph.Reset, keys]

theorem Sound_Add (E : Escapers) (g : Graph K) (u : URL) (h : Sound E g) :
    Sound E (g.Add E u) := by
  cases hl : lookup g.nodes (urlsum E u) with
  | some p =>
    rw [Add_of_present E g u p hl]
    exact h
  | none =>
    rw [Add_nodes_of_absent E g u hl]
    refine ⟨nodup_keys_assign _ _ _ h.nodesNodup, h.edgesNodup, h.innerNodup, ?_, ?_, ?_, h.noLoop⟩
    · intro k p hm
      rcases mem_assign _ _ _ _ hm with he | he
      · simp only [Prod.mk.injEq] at he
        rw [he.1, he.2]
        rfl
      · exact h.canonical k p he
    · intro s m hm
      exact (mem_keys_assign _ _ _ _).mpr (Or.inl (h.sourceNode s m hm))
    · intro s m t hm ht
      exact (mem_keys_assign _ _ _ _).mpr (Or.inl (h.targetNode s m t hm ht))

theorem Sound_raise_outbound (E : Escapers) (g : Graph K) (k : Nat) (w : K) (h : Sound E g) :
    Sound E { g with nodes := update g.nodes k (fun p => { p with outbound := p.outbound + w }) } := by
  refine ⟨?_, h.edgesNodup, h.innerNodup, ?_, ?_, ?_, h.noLoop⟩
  · simp only [keys_update]
    exact h.nodesNodup
  · intro k' p hm
    rcases mem_update _ _ _ _ hm with he | ⟨v, hv, he⟩
    · exact h.canonical k' p he
    · simp only [Prod.mk.injEq] at he
      rw [he.1, he.2]
      exact h.canonical k v hv
  · intro s m hm
    simp only [keys_update]
    exact h.sourceNode s m hm
  · intro s m t hm ht
    simp only [keys_update]
    exact h.targetNode s m t hm ht

theorem inner_of_lookup (E : Escapers) (g : Graph K) (h : Sound E g) (a : Nat) :
    (keys ((lookup g.edges a).getD [])).Nodup ∧
      ∀ t, t ∈ keys ((lookup g.edges a).getD []) → t ∈ keys g.nodes ∧ t ≠ a := by
  cases hl : lookup g.edges a with
  | none => simp [keys]
  | some m =>
    have hm := mem_of_lookup _ _ _ hl
    exact ⟨h.innerNodup a m hm, fun t ht => ⟨h.targetNode a m t hm ht, h.noLoop a m t hm ht⟩⟩

theorem ID_of_Get (E : Escapers) (g : Graph K) (h : Sound E g) (u : URL) (p : Page K)
    (hp : g.Get E u = some p) : p.ID E = urlsum E u ∧ urlsum E u ∈ keys g.nodes := by
  rw [Get_eq_lookup] at hp
  exact ⟨h.canonical _ _ (mem_of_lookup _ _ _ hp), mem_keys_of_mem _ _ _ (mem_of_lookup _ _ _ hp)⟩

/-- The shape of the result of `Link` in each of its four branches. -/
theorem Link_eq (E : Escapers) (g : Graph K) (s t : URL) (w : K) :
    (g.Get E s = none ∧ g.Link E s t w = g) ∨
      (∃ sp, g.Get E s = some sp ∧ (g.Get E t = none ∨ ∃ tp, g.Get E t = some tp ∧ sp.ID E = tp.ID E) ∧
        g.Link E s t w =
          { g with nodes := update g.nodes (urlsum E s)
                     (fun p => { p with outbound := p.outbound + w }) }) ∨
      (∃ sp tp, g.Get E s = some sp ∧ g.Get E t = some tp ∧ sp.ID E ≠ tp.ID E ∧
        g.Link E s t w =
          { edges := assign g.edges (sp.ID E)
              (assign ((lookup g.edges (sp.ID E)).getD []) (tp.ID E)
                ((lookup ((lookup g.edges (sp.ID E)).getD []) (tp.ID E)).getD 0 + w)),
            nodes := update g.nodes (urlsum E s)
                     (fun p => { p with outbound := p.outbound + w }) }) := by
  cases hs : g.Get E s with
  | none =>
    left
    simp [Graph.Link, hs]
  | some sp =>
    right
    cases ht : g.Get E t with
    | none =>
      left
      exact ⟨sp, rfl, Or.inl rfl, by simp [Graph.Link, hs, ht]⟩
    | some tp =>
      by_cases hid : sp.ID E = tp.ID E
      · left
        exact ⟨sp, rfl, Or.inr ⟨tp, rfl, hid⟩, by simp [Graph.Link, hs, ht, hid]⟩
      · right
        exact ⟨sp, tp, rfl, rfl, hid, by simp [Graph.Link, hs, ht, hid]⟩

theorem Sound_Link (E : Escapers) (g : Graph K) (s t : URL) (w : K) (h : Sound E g) :
    Sound E (g.Link E s t w) := by
  rcases Link_eq E g s t w with ⟨-, he⟩ | ⟨sp, -, -, he⟩ | ⟨sp, tp, hs, ht, hid, he⟩
  · rw [he]
    exact h
  · rw [he]
    exact Sound_raise_outbound E g _ w h
  · rw [he]
    have h1 := Sound_raise_outbound E g (urlsum E s) w h
    have hsid := ID_of_Get E g h s sp hs
    have htid := ID_of_Get E g h t tp ht
    have hin := inner_of_lookup E g h (sp.ID E)
    refine ⟨h1.nodesNodup, nodup_keys_assign _ _ _ h.edgesNodup, ?_, h1.canonical, ?_, ?_, ?_⟩
    · intro a m hm
      rcases mem_assign _ _ _ _ hm with hm | hm
      · simp only [Prod.mk.injEq] at hm
        rw [hm.2]
        exact nodup_keys_assign _ _ _ hin.1
      · exact h.innerNodup a m hm
    · intro a m hm
      simp only [keys_update]
      rcases mem_assign _ _ _ _ hm with hm | hm
      · simp only [Prod.mk.injEq] at hm
        rw [hm.1, hsid.1]
        exact hsid.2
      · exact h.sourceNode a m hm
    · intro a m b hm hb
      simp only [keys_update]
      rcases mem_assign _ _ _ _ hm with hm | hm
      · simp only [Prod.mk.injEq] at hm
        rw [hm.2] at hb
        rcases (mem_keys_assign _ _ _ _).mp hb with hb | hb
        · exact (hin.2 b hb).1
        · rw [hb, htid.1]
          exact htid.2
      · exact h.targetNode a m b hm hb
    · intro a m b hm hb
      rcases mem_assign _ _ _ _ hm with hm | hm
      · simp only [Prod.mk.injEq] at hm
        rw [hm.2] at hb
        rw [hm.1]
        rcases (mem_keys_assign _ _ _ _).mp hb with hb | hb
        · exact (hin.2 b hb).2
        · rw [hb]
          exact Ne.symm hid
      · exact h.noLoop a m b hm hb

end Invariant

/-! ## `Link` between two distinct nodes (C6) -/

section Linking

variable {K : Type} [Zero K] [HAdd K K K]

theorem edge_getD_eq (g : Graph K) (a b : Nat) :
    (g.edge a b).getD 0 = (lookup ((lookup g.edges a).getD []) b).getD 0 := by
  unfold Graph.edge
  cases lookup g.edges a <;> simp [lookup]

theorem edge_eq_lookup_inner (g : Graph K) (a b : Nat) :
    g.edge a b = lookup ((lookup g.edges a).getD []) b := by
  unfold Graph.edge
  cases lookup g.edges a <;> simp [lookup]

/-- What one accepted `Link` does to the graph, `+` being the addition of the
weight type. -/
theorem Link_accepted (E : Escapers) (g : Graph K) (s t : URL) (w : K) (sp tp : Page K)
    (hg : Sound E g) (hs : g.Get E s = some sp) (ht : g.Get E t = some tp)
    (hne : urlsum E s ≠ urlsum E t) :
    (g.Link E s t w).edge (urlsum E s) (urlsum E t) =
        some ((g.edge (urlsum E s) (urlsum E t)).getD 0 + w) ∧
      (g.Link E s t w).Get E s = some { sp with outbound := sp.outbound + w } ∧
      (g.Link E s t w).Get E t = some tp ∧
      keys (g.Link E s t w).nodes = keys g.nodes ∧
      (∀ k, k ≠ urlsum E s → lookup (g.Link E s t w).nodes k = lookup g.nodes k) ∧
      (∀ a b, ¬ (a = urlsum E s ∧ b = urlsum E t) → (g.Link E s t w).edge a b = g.edge a b) := by
  have hsid := (ID_of_Get E g hg s sp hs).1
  have htid := (ID_of_Get E g hg t tp ht).1
  rcases Link_eq E g s t w with ⟨hn, -⟩ | ⟨sp', hs', hc, -⟩ | ⟨sp', tp', hs', ht', hid, he⟩
  · rw [hs] at hn
    cases hn
  · rw [hs] at hs'
    cases hs'
    rcases hc with hc | ⟨tp', ht', hid⟩
    · rw [ht] at hc
      cases hc
    · rw [ht] at ht'
      cases ht'
      rw [hsid, htid] at hid
      exact absurd hid hne
  · rw [hs] at hs'
    rw [ht] at ht'
    cases hs'
    cases ht'
    rw [hsid, htid] at he
    rw [he]
    refine ⟨?_, ?_, ?_, ?_, ?_, ?_⟩
    · rw [edge_getD_eq]
      simp only [Graph.edge, lookup_assign_self]
    · rw [Get_eq_lookup] at hs ⊢
      simp only [lookup_update_self, hs, Option.map_some']
    · rw [Get_eq_lookup] at ht ⊢
      simp only [lookup_update_ne _ _ _ _ (Ne.symm hne), ht]
    · simp only [keys_update]
    · intro k hk
      simp only [lookup_update_ne _ _ _ _ hk]
    · intro a b hab
      by_cases ha : a = urlsum E s
      · subst ha
        have hb : b ≠ urlsum E t := fun hb => hab ⟨rfl, hb⟩
        simp only [Graph.edge, lookup_assign_self, lookup_assign_ne _ _ _ _ hb]
        exact (edge_eq_lookup_inner g _ _).symm
      · simp only [Graph.edge, lookup_assign_ne _ _ _ _ ha]

/-- After calls with the weights `ws` the edge weight is the weight before with
the `ws` added to it one after the other, from the left. -/
theorem Link_folded (E : Escapers) (s t : URL) (hne : urlsum E s ≠ urlsum E t) (ws : List K) :
    ∀ (g : Graph K) (sp tp : Page K), Sound E g → g.Get E s = some sp → g.Get E t = some tp →
      ((ws.foldl (fun h x => h.Link E s t x) g).edge (urlsum E s) (urlsum E t)).getD 0 =
        ws.foldl (fun acc x => acc + x) ((g.edge (urlsum E s) (urlsum E t)).getD 0) := by
  induction ws with
  | nil =>
    intro g sp tp _ _ _
    rfl
  | cons w ws ih =>
    intro g sp tp hg hs ht
    have h := Link_accepted E g s t w sp tp hg hs ht hne
    rw [List.foldl_cons, List.foldl_cons,
      ih (g.Link E s t w) _ tp (Sound_Link E g s t w hg) h.2.1 h.2.2.1, h.1]
    rfl

/-- C6, amended: when source and target are nodes with different ids, `Link`
replaces the weight of the edge (source, target) by the sum, in the arithmetic
of the weights, of the old weight (0 for an absent edge) and `w`, and the
outbound total of the source by the sum of it and `w`; the node set, the rank
weight and address of the source, every other node and every other edge are
unchanged; and after calls with the weights `ws` on the same pair the edge
weight is the weight before with the `ws` added to it one after the other,
from the left.  The weight type is arbitrary: `Float64` with its rounded `+`,
or an ordered field, where the sums are exact (`Link_repeated`). -/
theorem Link_accumulates (E : Escapers) (g : Graph K) (s t : URL) (w : K) (sp tp : Page K)
    (hg : Sound E g) (hs : g.Get E s = some sp) (ht : g.Get E t = some tp)
    (hne : urlsum E s ≠ urlsum E t) :
    (g.Link E s t w).edge (urlsum E s) (urlsum E t) =
        some ((g.edge (urlsum E s) (urlsum E t)).getD 0 + w) ∧
      (g.Link E s t w).Get E s = some { sp with outbound := sp.outbound + w } ∧
      keys (g.Link E s t w).nodes = keys g.nodes ∧
      (∀ k, k ≠ urlsum E s → lookup (g.Link E s t w).nodes k = lookup g.nodes k) ∧
      (∀ a b, ¬ (a = urlsum E s ∧ b = urlsum E t) → (g.Link E s t w).edge a b = g.edge a b) ∧
      ∀ ws : List K,
        ((ws.foldl (fun h x => h.Link E s t x) g).edge (urlsum E s) (urlsum E t)).getD 0 =
          ws.foldl (fun acc x => acc + x) ((g.edge (urlsum E s) (urlsum E t)).getD 0) := by
  have h := Link_accepted E g s t w sp tp hg hs ht hne
  exact ⟨h.1, h.2.1, h.2.2.2.1, h.2.2.2.2.1, h.2.2.2.2.2,
    fun ws => Link_folded E s t hne ws g sp tp hg hs ht⟩

end Linking

section LinkingFloat64

theorem Sound_twoNodes64 : Sound plainEscapers twoNodes64 :=
  @Sound_Add Float64 float64Zero float64Add plainEscapers
    ((NewGraph : Graph Float64).Add64 (sampleURL "/a" "" "")) (sampleURL "/b" "" "")
    (@Sound_Add Float64 float64Zero float64Add plainEscapers NewGraph (sampleURL "/a" "" "")
      (@Sound_NewGraph Float64 float64Zero float64Add plainEscapers))

set_option maxRecDepth 100000 in
/-- The amended C6 on the graph with the nodes `https://a.test/a` and
`https://a.test/b` and `float64` weights: `Link(a, b, 0.1)` makes the edge
weight the `float64` sum `0 + 0.1`, which is `0.1`. -/
theorem Link_accumulates_witness :
    Sound plainEscapers twoNodes64 ∧
      twoNodes64.Get plainEscapers (sampleURL "/a" "" "") =
        some { weight := ⟨0⟩, outbound := ⟨0⟩, addr := sampleURL "/a" "" "" } ∧
      twoNodes64.Get plainEscapers (sampleURL "/b" "" "") =
        some { weight := ⟨0⟩, outbound := ⟨0⟩, addr := sampleURL "/b" "" "" } ∧
      urlsum plainEscapers (sampleURL "/a" "" "") ≠ urlsum plainEscapers (sampleURL "/b" "" "") ∧
      (twoNodes64.Link64 (sampleURL "/a" "" "") (sampleURL "/b" "" "") tenth).edge
          (urlsum plainEscapers (sampleURL "/a" "" ""))
          (urlsum plainEscapers (sampleURL "/b" "" "")) = some tenth :=
  ⟨Sound_twoNodes64, by decide!, by decide!, by decide,
    (@Link_accumulates Float64 float64Zero float64Add plainEscapers twoNodes64
      (sampleURL "/a" "" "") (sampleURL "/b" "" "") tenth
      { weight := ⟨0⟩, outbound := ⟨0⟩, addr := sampleURL "/a" "" "" }
      { weight := ⟨0⟩, outbound := ⟨0⟩, addr := sampleURL "/b" "" "" }
      Sound_twoNodes64 (by decide!) (by decide!) (by decide)).1.trans (by decide!)⟩

set_option maxRecDepth 100000 in
/-- C6, as stated, fails on `float64` weights.  On the graph with the nodes `a`
and `b`, three calls `Link(a, b, 0.1)` leave the edge weight
`0.30000000000000004`, which is not the sum of the three weights; and after
`Link(a, b, 2^53)` the call `Link(a, b, 1)` leaves the edge weight and the
outbound total of `a` at `2^53`: it raises them by 0, not by 1. -/
theorem Link_rounds_in_float64 :
    (twoNodes64.Get plainEscapers (sampleURL "/a" "" "")).isSome = true ∧
      (twoNodes64.Get plainEscapers (sampleURL "/b" "" "")).isSome = true ∧
      urlsum plainEscapers (sampleURL "/a" "" "") ≠ urlsum plainEscapers (sampleURL "/b" "" "") ∧
      ((([tenth, tenth, tenth].foldl
          (fun g w => g.Link64 (sampleURL "/a" "" "") (sampleURL "/b" "" "") w) twoNodes64).edge
          (urlsum plainEscapers (sampleURL "/a" "" ""))
          (urlsum plainEscapers (sampleURL "/b" "" ""))).map Float64.val) =
        some (1351079888211149 / 4503599627370496) ∧
      (1351079888211149 / 4503599627370496 : ℚ) ≠ tenth.val + tenth.val + tenth.val ∧
      ((twoNodes64.Link64 (sampleURL "/a" "" "") (sampleURL "/b" "" "") ⟨9007199254740992⟩).edge
          (urlsum plainEscapers (sampleURL "/a" "" ""))
          (urlsum plainEscapers (sampleURL "/b" "" ""))) = some ⟨9007199254740992⟩ ∧
      (((twoNodes64.Link64 (sampleURL "/a" "" "") (sampleURL "/b" "" "")
          ⟨9007199254740992⟩).Link64 (sampleURL "/a" "" "") (sampleURL "/b" "" "") ⟨1⟩).edge
          (urlsum plainEscapers (sampleURL "/a" "" ""))
          (urlsum plainEscapers (sampleURL "/b" "" ""))) = some ⟨9007199254740992⟩ ∧
      (((twoNodes64.Link64 (sampleURL "/a" "" "") (sampleURL "/b" "" "")
          ⟨9007199254740992⟩).Link64 (sampleURL "/a" "" "") (sampleURL "/b" "" "") ⟨1⟩).Get
          plainEscapers (sampleURL "/a" "" "")).map Page.outbound = some ⟨9007199254740992⟩ := by
  refine ⟨by decide, by decide, by decide, by decide!, by decide!, by decide!, by decide!,
    by decide!⟩

end LinkingFloat64

section LinkingExact

variable {K : Type} [LinearOrderedField K]

/-- In exact arithmetic the weight after the calls is the weight before plus
the sum of the `ws`. -/
theorem Link_repeated (E : Escapers) (s t : URL) (hne : urlsum E s ≠ urlsum E t) (ws : List K) :
    ∀ (g : Graph K) (sp tp : Page K), Sound E g → g.Get E s = some sp → g.Get E t = some tp →
      ((ws.foldl (fun h x => h.Link E s t x) g).edge (urlsum E s) (urlsum E t)).getD 0 =
        (g.edge (urlsum E s) (urlsum E t)).getD 0 + ws.sum := by
  induction ws with
  | nil =>
    intro g sp tp _ _ _
    simp
  | cons w ws ih =>
    intro g sp tp hg hs ht
    have h := Link_accepted E g s t w sp tp hg hs ht hne
    rw [List.foldl_cons, ih (g.Link E s t w) _ tp (Sound_Link E g s t w hg) h.2.1 h.2.2.1, h.1]
    simp only [Option.getD_some, List.sum_cons]
    ring

theorem Sound_twoNodes : Sound plainEscapers twoNodes :=
  Sound_Add _ _ _ (Sound_Add _ _ _ (Sound_NewGraph _))

end LinkingExact

/-! ## What `Rank` leaves unchanged, and that it never dereferences nil -/

section RankShape

variable {K : Type} [LinearOrderedField K]

theorem keys_eq_of_frame (a b : List (Nat × Page K)) (h : frame a = frame b) :
    keys a = keys b := by
  have h' := congrArg (List.map Prod.fst) h
  simpa [frame, keys, List.map_map, Function.comp_def] using h'

theorem frame_update (m : List (Nat × Page K)) (k : Nat) (f : Page K → Page K)
    (hf : ∀ p, (f p).outbound = p.outbound ∧ (f p).addr = p.addr) :
    frame (update m k f) = frame m := by
  induction m with
  | nil => simp [update]
  | cons e m ih =>
    obtain ⟨k', v'⟩ := e
    have ih' : List.map (fun e : Nat × Page K => (e.1, e.2.outbound, e.2.addr)) (update m k f) =
        List.map (fun e : Nat × Page K => (e.1, e.2.outbound, e.2.addr)) m := ih
    by_cases h : k' = k
    · simp [update, frame, h, (hf v').1, (hf v').2]
    · simp [update, frame, h, ih']

theorem frame_initWeights (x : K) (m : List (Nat × Page K)) : frame (initWeights x m) = frame m := by
  simp [frame, initWeights, List.map_map, Function.comp_def]

theorem frame_zeroWeights (m : List (Nat × Page K)) : frame (zeroWeights m) = frame m := by
  simp [frame, zeroWeights, List.map_map, Function.comp_def]

theorem spread_frame (α w : K) (es : List (Nat × K)) :
    ∀ nodes nodes' : List (Nat × Page K), spread α w nodes es = some nodes' →
      frame nodes' = frame nodes := by
  induction es with
  | nil =>
    intro nodes nodes' h
    simp only [spread, Option.some.injEq] at h
    rw [h]
  | cons e es ih =>
    intro nodes nodes' h
    obtain ⟨t, x⟩ := e
    cases hl : lookup nodes t with
    | none => simp [spread, hl] at h
    | some p =>
      simp only [spread, hl] at h
      rw [ih _ _ h]
      exact frame_update _ _ _ (fun p => ⟨rfl, rfl⟩)

theorem spread_isSome (α w : K) (es : List (Nat × K)) :
    ∀ nodes : List (Nat × Page K), (∀ t, t ∈ keys es → t ∈ keys nodes) →
      ∃ nodes', spread α w nodes es = some nodes' := by
  induction es with
  | nil =>
    intro nodes _
    exact ⟨nodes, rfl⟩
  | cons e es ih =>
    intro nodes h
    obtain ⟨t, x⟩ := e
    have ht : t ∈ keys nodes := h t (by simp [keys])
    obtain ⟨p, hp⟩ := (lookup_isSome_iff nodes t).mpr ht
    simp only [spread, hp]
    apply ih
    intro t' ht'
    rw [keys_update]
    exact h t' (by
      simp only [keys, List.map_cons, List.mem_cons]
      exact Or.inr ht')

theorem distribute_frame (α inverse leak : K) (edges : List (Nat × List (Nat × K)))
    (old : List (Nat × K)) (sources : List Nat) :
    ∀ nodes nodes' : List (Nat × Page K),
      distribute α inverse leak edges old nodes sources = some nodes' →
      frame nodes' = frame nodes := by
  induction sources with
  | nil =>
    intro nodes nodes' h
    simp only [distribute, Option.some.injEq] at h
    rw [h]
  | cons s sources ih =>
    intro nodes nodes' h
    cases hs : spread α ((lookup old s).getD 0) nodes ((lookup edges s).getD []) with
    | none => simp [distribute, hs] at h
    | some mid =>
      simp only [distribute, hs] at h
      rw [ih _ _ h]
      refine Eq.trans (frame_update _ _ _ ?_) (spread_frame _ _ _ _ _ hs)
      intro p
      exact ⟨rfl, rfl⟩

theorem distribute_isSome (α inverse leak : K) (edges : List (Nat × List (Nat × K)))
    (old : List (Nat × K)) (sources : List Nat) :
    ∀ nodes : List (Nat × Page K),
      (∀ s t, t ∈ keys ((lookup edges s).getD []) → t ∈ keys nodes) →
      ∃ nodes', distribute α inverse leak edges old nodes sources = some nodes' := by
  induction sources with
  | nil =>
    intro nodes _
    exact ⟨nodes, rfl⟩
  | cons s sources ih =>
    intro nodes h
    obtain ⟨mid, hmid⟩ := spread_isSome α ((lookup old s).getD 0) ((lookup edges s).getD [])
      nodes (h s)
    simp only [distribute, hmid]
    apply ih
    intro s' t ht
    rw [keys_update, keys_eq_of_frame _ _ (spread_frame _ _ _ _ _ hmid)]
    exact h s' t ht

theorem iteration_isSome (α inverse : K) (g : Graph K) (h : Closed g) :
    ∃ r, iteration α inverse g = some r := by
  obtain ⟨ns, hns⟩ := distribute_isSome α inverse (leakOf g.nodes * α) g.edges (snapshot g.nodes)
    (keys g.nodes) (zeroWeights g.nodes) (by
      intro s t ht
      rw [keys_eq_of_frame _ _ (frame_zeroWeights g.nodes)]
      exact h s t ht)
  exact ⟨({ g with nodes := ns }, deltaOf (snapshot g.nodes) ns), by simp only [iteration, hns]⟩

theorem iteration_shape (α inverse : K) (g : Graph K) (r : Graph K × K)
    (h : iteration α inverse g = some r) :
    r.1.edges = g.edges ∧ frame r.1.nodes = frame g.nodes := by
  unfold iteration at h
  cases hd : distribute α inverse (leakOf g.nodes * α) g.edges (snapshot g.nodes)
      (zeroWeights g.nodes) (keys g.nodes) with
  | none => simp [hd] at h
  | some ns =>
    simp only [hd, Option.some.injEq] at h
    subst h
    exact ⟨rfl, (distribute_frame _ _ _ _ _ _ _ _ hd).trans (frame_zeroWeights _)⟩

theorem Closed_of_shape (g g' : Graph K) (he : g'.edges = g.edges)
    (hn : frame g'.nodes = frame g.nodes) (h : Closed g) : Closed g' := by
  intro s t ht
  rw [keys_eq_of_frame _ _ hn]
  rw [he] at ht
  exact h s t ht

theorem rankLoop_shape (α ε inverse : K) (fuel : Nat) :
    ∀ (Δ : K) (g : Graph K), Closed g →
      rankLoop α ε inverse fuel Δ g ≠ Outcome.panic ∧
        ∀ g', rankLoop α ε inverse fuel Δ g = Outcome.done g' →
          g'.edges = g.edges ∧ frame g'.nodes = frame g.nodes := by
  induction fuel with
  | zero =>
    intro Δ g _
    by_cases hΔ : Δ > ε
    · simp [rankLoop, hΔ]
    · simp only [rankLoop, hΔ, if_false, ne_eq, Outcome.done.injEq]
      exact ⟨by simp, fun g' hg' => by rw [← hg']; exact ⟨rfl, rfl⟩⟩
  | succ fuel ih =>
    intro Δ g hc
    by_cases hΔ : Δ > ε
    · obtain ⟨r, hr⟩ := iteration_isSome α inverse g hc
      have hs := iteration_shape α inverse g r hr
      have hc' := Closed_of_shape g r.1 hs.1 hs.2 hc
      simp only [rankLoop, hΔ, if_true, hr]
      refine ⟨(ih r.2 r.1 hc').1, fun g' hg' => ?_⟩
      have := (ih r.2 r.1 hc').2 g' hg'
      exact ⟨this.1.trans hs.1, this.2.trans hs.2⟩
    · simp only [rankLoop, hΔ, if_false, ne_eq, Outcome.done.injEq]
      exact ⟨by simp, fun g' hg' => by rw [← hg']; exact ⟨rfl, rfl⟩⟩

end RankShape

section RankSound

variable {K : Type} [LinearOrderedField K]

theorem normalize_edgeFrame (nodes : List (Nat × Page K)) (es : List (Nat × List (Nat × K))) :
    ∀ es', normalize nodes es = some es' → edgeFrame es' = edgeFrame es := by
  induction es with
  | nil =>
    intro es' h
    simp only [normalize, Option.some.injEq] at h
    rw [← h]
  | cons e es ih =>
    intro es' h
    obtain ⟨s, m⟩ := e
    cases hl : lookup nodes s with
    | none => simp [normalize, hl] at h
    | some p =>
      cases hr : normalize nodes es with
      | none => simp [normalize, hl, hr] at h
      | some r =>
        simp only [normalize, hl, hr, Option.some.injEq] at h
        rw [← h]
        have ihr : List.map (fun e : Nat × List (Nat × K) => (e.1, keys e.2)) r =
            List.map (fun e : Nat × List (Nat × K) => (e.1, keys e.2)) es := ih r hr
        by_cases hp : p.outbound > 0
        · have hk : keys (List.map (fun e : Nat × K => (e.1, e.2 / p.outbound)) m) = keys m := by
            simp [keys, List.map_map, Function.comp_def]
          simp only [edgeFrame, hp, if_true, List.map_cons, hk, ihr]
        · simp [edgeFrame, hp, ihr]

theorem normalize_isSome (nodes : List (Nat × Page K)) (es : List (Nat × List (Nat × K)))
    (h : ∀ s, s ∈ keys es → s ∈ keys nodes) : ∃ es', normalize nodes es = some es' := by
  induction es with
  | nil => exact ⟨[], rfl⟩
  | cons e es ih =>
    obtain ⟨s, m⟩ := e
    obtain ⟨p, hp⟩ := (lookup_isSome_iff nodes s).mpr (h s (by simp [keys]))
    obtain ⟨r, hr⟩ := ih (fun s' hs' => h s' (by
      simp only [keys, List.map_cons, List.mem_cons]
      exact Or.inr hs'))
    exact ⟨(s, if p.outbound > 0 then List.map (fun e => (e.1, e.2 / p.outbound)) m else m) :: r,
      by simp only [normalize, hp, hr]⟩

theorem lookup_edgeFrame (es : List (Nat × List (Nat × K))) (s : Nat) :
    lookup (edgeFrame es) s = (lookup es s).map keys := by
  induction es with
  | nil => simp [edgeFrame, lookup]
  | cons e es ih =>
    obtain ⟨s', m⟩ := e
    have ih' : lookup (List.map (fun e : Nat × List (Nat × K) => (e.1, keys e.2)) es) s =
        (lookup es s).map keys := ih
    by_cases h : s' = s
    · simp [edgeFrame, lookup, h]
    · simp [edgeFrame, lookup, h, ih']

theorem keys_lookup_of_edgeFrame (es es' : List (Nat × List (Nat × K)))
    (h : edgeFrame es' = edgeFrame es) (s : Nat) :
    keys ((lookup es' s).getD []) = keys ((lookup es s).getD []) := by
  have h1 := lookup_edgeFrame es' s
  rw [h, lookup_edgeFrame es s] at h1
  cases ha : lookup es s <;> cases hb : lookup es' s <;> simp [ha, hb] at h1 ⊢
  exact h1.symm

theorem keys_eq_of_edgeFrame (es es' : List (Nat × List (Nat × K)))
    (h : edgeFrame es' = edgeFrame es) : keys es' = keys es := by
  have h' := congrArg (List.map Prod.fst) h
  simpa [edgeFrame, keys, List.map_map, Function.comp_def] using h'

theorem mem_of_edgeFrame (es es' : List (Nat × List (Nat × K)))
    (h : edgeFrame es' = edgeFrame es) (s : Nat) (m' : List (Nat × K)) (hm : (s, m') ∈ es') :
    ∃ m, (s, m) ∈ es ∧ keys m = keys m' := by
  have h1 : (s, keys m') ∈ edgeFrame es' := by
    simp only [edgeFrame, List.mem_map]
    exact ⟨(s, m'), hm, rfl⟩
  rw [h] at h1
  simp only [edgeFrame, List.mem_map, Prod.mk.injEq] at h1
  obtain ⟨⟨s₀, m⟩, hmem, hs, hk⟩ := h1
  simp only at hs hk
  subst hs
  exact ⟨m, hmem, hk⟩

theorem mem_of_frame (ns ns' : List (Nat × Page K)) (h : frame ns' = frame ns) (k : Nat)
    (p' : Page K) (hm : (k, p') ∈ ns') :
    ∃ p, (k, p) ∈ ns ∧ p.addr = p'.addr ∧ p.outbound = p'.outbound := by
  have h1 : (k, p'.outbound, p'.addr) ∈ frame ns' := by
    simp only [frame, List.mem_map]
    exact ⟨(k, p'), hm, rfl⟩
  rw [h] at h1
  simp only [frame, List.mem_map, Prod.mk.injEq] at h1
  obtain ⟨⟨k₀, p⟩, hmem, hk, ho, ha⟩ := h1
  simp only at hk ho ha
  subst hk
  exact ⟨p, hmem, ha, ho⟩

/-- The invariant depends on the weights of neither nodes nor edges. -/
theorem Sound_of_shape (E : Escapers) (g g' : Graph K) (hn : frame g'.nodes = frame g.nodes)
    (he : edgeFrame g'.edges = edgeFrame g.edges) (h : Sound E g) : Sound E g' := by
  have hk := keys_eq_of_frame _ _ hn
  refine ⟨?_, ?_, ?_, ?_, ?_, ?_, ?_⟩
  · rw [hk]
    exact h.nodesNodup
  · rw [keys_eq_of_edgeFrame _ _ he]
    exact h.edgesNodup
  · intro s m' hm
    obtain ⟨m, hmem, hkm⟩ := mem_of_edgeFrame _ _ he s m' hm
    rw [← hkm]
    exact h.innerNodup s m hmem
  · intro k p' hm
    obtain ⟨p, hmem, ha, -⟩ := mem_of_frame _ _ hn k p' hm
    have := h.canonical k p hmem
    simp only [Page.ID] at this ⊢
    rw [← ha]
    exact this
  · intro s m' hm
    obtain ⟨m, hmem, -⟩ := mem_of_edgeFrame _ _ he s m' hm
    rw [hk]
    exact h.sourceNode s m hmem
  · intro s m' t hm ht
    obtain ⟨m, hmem, hkm⟩ := mem_of_edgeFrame _ _ he s m' hm
    rw [hk]
    exact h.targetNode s m t hmem (hkm ▸ ht)
  · intro s m' t hm ht
    obtain ⟨m, hmem, hkm⟩ := mem_of_edgeFrame _ _ he s m' hm
    exact h.noLoop s m t hmem (hkm ▸ ht)

theorem Closed_of_Sound (E : Escapers) (g : Graph K) (h : Sound E g) : Closed g :=
  fun s t ht => ((inner_of_lookup E g h s).2 t ht).1

theorem rankStart_isSome (E : Escapers) (g : Graph K) (h : Sound E g) :
    ∃ g0, rankStart g = some g0 ∧ frame g0.nodes = frame g.nodes ∧
      edgeFrame g0.edges = edgeFrame g.edges := by
  obtain ⟨es, hes⟩ := normalize_isSome g.nodes g.edges (by
    intro s hs
    simp only [keys, List.mem_map] at hs
    obtain ⟨⟨s', m⟩, hm, rfl⟩ := hs
    exact h.sourceNode s' m hm)
  exact ⟨{ edges := es, nodes := initWeights (1 / (g.nodes.length : K)) g.nodes },
    by simp only [rankStart, hes], frame_initWeights _ _, normalize_edgeFrame _ _ _ hes⟩

/-- On a sound graph `Rank` never dereferences nil, and when it returns it has
changed nothing but the weights. -/
theorem Rank_shape (E : Escapers) (g : Graph K) (h : Sound E g) (fuel : Nat) (α ε : K) :
    g.Rank fuel α ε ≠ Outcome.panic ∧
      ∀ g', g.Rank fuel α ε = Outcome.done g' →
        frame g'.nodes = frame g.nodes ∧ edgeFrame g'.edges = edgeFrame g.edges := by
  obtain ⟨g0, h0, hn, he⟩ := rankStart_isSome E g h
  have hc : Closed g0 := Closed_of_Sound E g0 (Sound_of_shape E g g0 hn he h)
  have hl := rankLoop_shape α ε (1 / (g.nodes.length : K)) fuel 1 g0 hc
  simp only [Graph.Rank, h0]
  refine ⟨hl.1, fun g' hg' => ?_⟩
  have := hl.2 g' hg'
  exact ⟨this.2.trans hn, by rw [this.1]; exact he⟩

theorem Sound_of_Reachable (E : Escapers) (g : Graph K) (h : Reachable E g) : Sound E g := by
  induction h with
  | new => exact Sound_NewGraph E
  | reset g _ _ => exact Sound_Reset E g
  | add g u _ ih => exact Sound_Add E g u ih
  | link g s t w _ ih => exact Sound_Link E g s t w ih
  | rank g g' fuel α ε _ hr ih =>
    have := (Rank_shape E g ih fuel α ε).2 g' hr
    exact Sound_of_shape E g g' this.1 this.2 ih

end RankSound

/-! ## `Traverse` (C7) -/

section Traversal

variable {K : Type} [LinearOrderedField K]

theorem edge_of_mem (E : Escapers) (g : Graph K) (hg : Sound E g) (a t : Nat) (w : K)
    (h : (t, w) ∈ (lookup g.edges a).getD []) :
    g.edge a t = some w ∧ t ∈ keys g.nodes ∧ t ≠ a := by
  have hin := inner_of_lookup E g hg a
  refine ⟨?_, hin.2 t (mem_keys_of_mem _ _ _ h)⟩
  rw [edge_eq_lookup_inner]
  exact lookup_of_mem _ hin.1 t w h

theorem rangeEdges_no_panic (E : Escapers) (g : Graph K) (hg : Sound E g)
    (callee : URL → List Nat → List (Visit K) × Bool) (hc : ∀ u seen, (callee u seen).2 = false)
    (source : Page K) (a : Nat) (seen : List Nat) (L : List (Nat × K))
    (hL : ∀ e ∈ L, e ∈ (lookup g.edges a).getD []) :
    (rangeEdges E g callee source seen L).2 = false := by
  induction L with
  | nil => rfl
  | cons e L ih =>
    obtain ⟨t, w⟩ := e
    have ht := edge_of_mem E g hg a t w (hL (t, w) (List.mem_cons_self _ _))
    obtain ⟨target, htarget⟩ := (lookup_isSome_iff g.nodes t).mpr ht.2.1
    by_cases hseen : t ∈ seen
    · simp [rangeEdges, hseen]
    · simp only [rangeEdges, hseen, if_false, htarget, hc, Bool.false_eq_true]
      exact ih (fun e he => hL e (List.mem_cons_of_mem _ he))

theorem traverse_no_panic (E : Escapers) (g : Graph K) (hg : Sound E g)
    (order : List Nat → Nat → List (Nat × K)) (ho : IterationOrder g order) (n : Nat) :
    ∀ u seen, (traverse E g order n u seen).2 = false := by
  induction n with
  | zero =>
    intro u seen
    rfl
  | succ n ih =>
    intro u seen
    cases hs : g.Get E u with
    | none => simp [traverse, hs]
    | some source =>
      simp only [traverse, hs]
      exact rangeEdges_no_panic E g hg _ ih source (source.ID E) seen _
        (fun e he => (ho seen (source.ID E)).subset he)

theorem rangeEdges_justified (E : Escapers) (g : Graph K) (hg : Sound E g)
    (callee : URL → List Nat → List (Visit K) × Bool) (n : Nat) (source : Page K) (a : Nat)
    (ha : source.ID E = a) (hsrc : lookup g.nodes a = some source) (seen : List Nat)
    (hc : ∀ t target, lookup g.nodes t = some target →
      ∀ seen' v, v ∈ (callee target.addr seen').1 → Justified E g t seen' n v)
    (L : List (Nat × K)) (hL : ∀ e ∈ L, e ∈ (lookup g.edges a).getD []) :
    ∀ v, v ∈ (rangeEdges E g callee source seen L).1 → Justified E g a seen (n + 1) v := by
  induction L with
  | nil =>
    intro v hv
    simp [rangeEdges] at hv
  | cons e L ih =>
    intro v hv
    obtain ⟨t, w⟩ := e
    have ht := edge_of_mem E g hg a t w (hL (t, w) (List.mem_cons_self _ _))
    obtain ⟨target, htarget⟩ := (lookup_isSome_iff g.nodes t).mpr ht.2.1
    have ih' := ih (fun e he => hL e (List.mem_cons_of_mem _ he))
    by_cases hseen : t ∈ seen
    · simp [rangeEdges, hseen] at hv
    · have deep : ∀ v, v ∈ (callee target.addr (seen ++ [source.ID E, t])).1 →
          Justified E g a seen (n + 1) v := by
        intro v hv
        obtain ⟨path, x, y, px, py, hhead, hsuf, hpath, hnd, htail, hlen, hx, hy, hvs, hvt, hw⟩ :=
          hc t target htarget _ v hv
        cases path with
        | nil => simp at hhead
        | cons t' tl =>
          simp only [List.head?_cons, Option.some.injEq] at hhead
          subst hhead
          simp only [List.tail_cons] at htail
          refine ⟨a :: t' :: tl, x, y, px, py, rfl, ?_, ?_, ?_, ?_, ?_, hx, hy, hvs, hvt, hw⟩
          · exact hsuf.trans (List.suffix_cons _ _)
          · exact List.Chain'.cons ⟨w, ht.1⟩ hpath
          · refine List.nodup_cons.mpr ⟨?_, hnd⟩
            intro hmem
            rcases List.mem_cons.mp hmem with h | h
            · exact ht.2.2 h.symm
            · exact htail a h (by simp [ha])
          · intro z hz
            simp only [List.tail_cons, List.mem_cons] at hz
            rcases hz with h | h
            · rw [h]
              exact hseen
            · intro hzs
              exact htail z h (List.mem_append_left _ hzs)
          · simp only [List.length_cons] at hlen ⊢
            omega
      by_cases hp : (callee target.addr (seen ++ [source.ID E, t])).2 = true
      · simp only [rangeEdges, hseen, if_false, htarget, hp, if_true] at hv
        exact deep v hv
      · simp only [rangeEdges, hseen, if_false, htarget, hp, List.mem_append, List.mem_singleton,
          Bool.false_eq_true] at hv
        rcases hv with (hv | hv) | hv
        · exact deep v hv
        · refine ⟨[a, t], a, t, source, target, rfl, List.suffix_refl _, ?_, ?_, ?_, ?_, hsrc,
            htarget, ?_, ?_, ?_⟩
          · exact List.Chain'.cons ⟨w, ht.1⟩ (List.chain'_singleton _)
          · simp [Ne.symm ht.2.2]
          · intro z hz
            simp only [List.tail_cons, List.mem_singleton] at hz
            rw [hz]
            exact hseen
          · simp
          · rw [hv]
          · rw [hv]
          · rw [hv]
            exact ht.1
        · exact ih' v hv

theorem traverse_justified (E : Escapers) (g : Graph K) (hg : Sound E g)
    (order : List Nat → Nat → List (Nat × K)) (ho : IterationOrder g order) (n : Nat) :
    ∀ u seen v, v ∈ (traverse E g order n u seen).1 → Justified E g (urlsum E u) seen n v := by
  induction n with
  | zero =>
    intro u seen v hv
    simp [traverse] at hv
  | succ n ih =>
    intro u seen v hv
    cases hs : g.Get E u with
    | none => simp [traverse, hs] at hv
    | some source =>
      simp only [traverse, hs] at hv
      have hid := ID_of_Get E g hg u source hs
      rw [Get_eq_lookup] at hs
      refine rangeEdges_justified E g hg _ n source (urlsum E u) hid.1 hs seen ?_ _ ?_ v hv
      · intro t target htarget seen' v' hv'
        have hcan : urlsum E target.addr = t := hg.canonical t target (mem_of_lookup _ _ _ htarget)
        have := ih target.addr seen' v' hv'
        rw [hcan] at this
        exact this
      · intro e he
        rw [hid.1] at he
        exact (ho seen (urlsum E u)).subset he

end Traversal

section TraversalClaims

variable {K : Type} [LinearOrderedField K]

theorem IterationOrder_storedOrder (g : Graph K) : IterationOrder g (storedOrder g) :=
  fun _ _ => List.Perm.refl _

theorem Sound_linkedPair : Sound plainEscapers linkedPair :=
  Sound_Link _ _ _ _ _ Sound_twoNodes

/-- C7: on every graph the package can hold (a sound one), for every seed,
every depth `d` and every iteration order of the edge maps, each callback that
`Traverse(seed, nil, d, callback)` makes carries the addresses of two nodes
`a`, `b` and the weight of the stored edge `a → b`, and that edge ends a path
that starts at the seed, has at most `d` edges and visits no node twice; for
`d ≤ 0` no callback is made. -/
theorem Traverse_callbacks (E : Escapers) (g : Graph K)
    (order : List Nat → Nat → List (Nat × K)) (seed : URL) (d : Int) (hg : Sound E g)
    (ho : IterationOrder g order) :
    (d ≤ 0 → (g.Traverse E order seed [] d).1 = []) ∧
      ∀ v, v ∈ (g.Traverse E order seed [] d).1 →
        ∃ (path : List Nat) (a b : Nat) (pa pb : Page K),
          path.head? = some (urlsum E seed) ∧ [a, b] <:+ path ∧ IsPath g path ∧ path.Nodup ∧
            (path.length : Int) ≤ d + 1 ∧
            lookup g.nodes a = some pa ∧ lookup g.nodes b = some pb ∧
            v.source = pa.addr.String E ∧ v.target = pb.addr.String E ∧
            g.edge a b = some v.weight := by
  refine ⟨fun hd => by simp [Graph.Traverse, hd], fun v hv => ?_⟩
  by_cases hd : d ≤ 0
  · simp [Graph.Traverse, hd] at hv
  · simp only [Graph.Traverse, hd, if_false] at hv
    obtain ⟨path, a, b, pa, pb, h1, h2, h3, h4, -, h6, h7, h8, h9, h10, h11⟩ :=
      traverse_justified E g hg order ho d.toNat seed [] v hv
    refine ⟨path, a, b, pa, pb, h1, h2, h3, h4, ?_, h7, h8, h9, h10, h11⟩
    have : ((d.toNat : Nat) : Int) = d := Int.toNat_of_nonneg (by omega)
    omega

set_option maxRecDepth 100000 in
/-- C7 on the graph `a → b` (weight 1), seed `a`, depth 2, stored order: the
one callback is justified by the path `a, b`. -/
theorem Traverse_callbacks_witness :
    Sound plainEscapers linkedPair ∧ IterationOrder linkedPair (storedOrder linkedPair) ∧
      (linkedPair.Traverse plainEscapers (storedOrder linkedPair) (sampleURL "/a" "" "") [] 2).1 =
        [{ source := "https://a.test/a", target := "https://a.test/b", weight := 1 }] ∧
      ∃ (path : List Nat) (a b : Nat) (pa pb : Page ℚ),
        path.head? = some (urlsum plainEscapers (sampleURL "/a" "" "")) ∧ [a, b] <:+ path ∧
          IsPath linkedPair path ∧ path.Nodup ∧ (path.length : Int) ≤ 2 + 1 ∧
          lookup linkedPair.nodes a = some pa ∧ lookup linkedPair.nodes b = some pb ∧
          "https://a.test/a" = pa.addr.String plainEscapers ∧
          "https://a.test/b" = pb.addr.String plainEscapers ∧
          linkedPair.edge a b = some 1 :=
  ⟨Sound_linkedPair, IterationOrder_storedOrder linkedPair, by decide!,
    (Traverse_callbacks plainEscapers linkedPair (storedOrder linkedPair) (sampleURL "/a" "" "") 2
      Sound_linkedPair (IterationOrder_storedOrder linkedPair)).2
      { source := "https://a.test/a", target := "https://a.test/b", weight := 1 } (by decide!)⟩

end TraversalClaims

/-! ## The edges of a reachable graph (C10) -/

section EdgeInvariant

variable {K : Type} [LinearOrderedField K]

theorem Link_self_edges (E : Escapers) (g : Graph K) (u : URL) (w : K) :
    (g.Link E u u w).edges = g.edges := by
  rcases Link_eq E g u u w with ⟨-, he⟩ | ⟨sp, -, -, he⟩ | ⟨sp, tp, hs, ht, hid, -⟩
  · rw [he]
  · rw [he]
  · rw [hs] at ht
    cases ht
    exact absurd rfl hid

/-- C10: in every graph reachable from `NewGraph` by `Add`, `Link` and `Reset`
(and `Rank`), every stored edge has a source and a target that are keys of the
node map and differ from each other; `Link(u, u, w)` leaves the edges as they
are; and neither `Rank` nor `Traverse` dereferences a missing node. -/
theorem Reachable_edges_join_nodes (E : Escapers) (g : Graph K) (h : Reachable E g) :
    (∀ s m t w, (s, m) ∈ g.edges → (t, w) ∈ m →
        s ∈ keys g.nodes ∧ t ∈ keys g.nodes ∧ s ≠ t) ∧
      (∀ a b w, g.edge a b = some w → a ∈ keys g.nodes ∧ b ∈ keys g.nodes ∧ a ≠ b) ∧
      (∀ u w, (g.Link E u u w).edges = g.edges) ∧
      (∀ fuel α ε, g.Rank fuel α ε ≠ Outcome.panic) ∧
      ∀ order, IterationOrder g order →
        ∀ u seen d, (g.Traverse E order u seen d).2 = false := by
  have hg := Sound_of_Reachable E g h
  have hmem : ∀ s m t w, (s, m) ∈ g.edges → (t, w) ∈ m →
      s ∈ keys g.nodes ∧ t ∈ keys g.nodes ∧ s ≠ t := by
    intro s m t w hm ht
    have hk := mem_keys_of_mem _ _ _ ht
    exact ⟨hg.sourceNode s m hm, hg.targetNode s m t hm hk, Ne.symm (hg.noLoop s m t hm hk)⟩
  refine ⟨hmem, ?_, Link_self_edges E g, fun fuel α ε => (Rank_shape E g hg fuel α ε).1, ?_⟩
  · intro a b w hw
    unfold Graph.edge at hw
    cases hl : lookup g.edges a with
    | none => simp [hl] at hw
    | some m =>
      simp only [hl] at hw
      exact hmem a m b w (mem_of_lookup _ _ _ hl) (mem_of_lookup _ _ _ hw)
  · intro order ho u seen d
    by_cases hd : d ≤ 0
    · simp [Graph.Traverse, hd]
    · simp only [Graph.Traverse, hd, if_false]
      exact traverse_no_panic E g hg order ho d.toNat u seen

theorem Reachable_linkedPair : Reachable plainEscapers linkedPair :=
  Reachable.link _ _ _ _ (Reachable.add _ _ (Reachable.add _ _ Reachable.new))

/-- C10 on the graph `a → b`: `Rank` with three passes allowed does not
dereference nil, and a self-loop `Link(a, a, 1)` leaves the edges as they are. -/
theorem Reachable_edges_join_nodes_witness :
    Reachable plainEscapers linkedPair ∧
      linkedPair.Rank 3 (1 / 2) (1 / 8) ≠ Outcome.panic ∧
      (linkedPair.Link plainEscapers (sampleURL "/a" "" "") (sampleURL "/a" "" "") 1).edges =
        linkedPair.edges :=
  ⟨Reachable_linkedPair,
    (Reachable_edges_join_nodes plainEscapers linkedPair Reachable_linkedPair).2.2.2.1 3 (1 / 2)
      (1 / 8),
    (Reachable_edges_join_nodes plainEscapers linkedPair Reachable_linkedPair).2.2.1
      (sampleURL "/a" "" "") 1⟩

end EdgeInvariant

/-! ## Sums over lists -/

section Sums

variable {K : Type} [LinearOrderedField K]

theorem sum_map_ite_eq_of_mem (l : List Nat) (hnd : l.Nodup) (k : Nat) (hk : k ∈ l) (c : K) :
    (l.map (fun s => if s = k then c else 0)).sum = c := by
  induction l with
  | nil => simp at hk
  | cons a l ih =>
    simp only [List.nodup_cons] at hnd
    by_cases ha : a = k
    · subst ha
      have : (l.map (fun s => if s = a then c else 0)).sum = 0 := by
        apply List.sum_eq_zero
        intro x hx
        simp only [List.mem_map] at hx
        obtain ⟨s, hs, rfl⟩ := hx
        have : s ≠ a := fun h => hnd.1 (h ▸ hs)
        simp [this]
      simp [this]
    · have hk' : k ∈ l := by
        rcases List.mem_cons.mp hk with h | h
        · exact absurd h.symm ha
        · exact h
      simp [ha, ih hnd.2 hk']

theorem sum_map_ite_eq_of_mem' (l : List Nat) (hnd : l.Nodup) (k : Nat) (hk : k ∈ l) (c : K) :
    (l.map (fun s => if k = s then c else 0)).sum = c := by
  refine Eq.trans (congrArg List.sum (List.map_congr_left ?_)) (sum_map_ite_eq_of_mem l hnd k hk c)
  intro s _
  by_cases h : s = k
  · simp [h]
  · simp [h, Ne.symm h]

theorem sum_map_swap {β : Type} (ks : List Nat) (es : List β) (f : Nat → β → K) :
    (ks.map (fun k => (es.map (f k)).sum)).sum =
      (es.map (fun e => (ks.map (fun k => f k e)).sum)).sum := by
  induction es with
  | nil => simp
  | cons e es ih =>
    simp only [List.map_cons, List.sum_cons, List.sum_map_add, ih]

theorem sum_map_swap_keys (ks ss : List Nat) (f : Nat → Nat → K) :
    (ks.map (fun k => (ss.map (fun s => f k s)).sum)).sum =
      (ss.map (fun s => (ks.map (fun k => f k s)).sum)).sum :=
  sum_map_swap ks ss f

theorem abs_sum_map_le {β : Type} (l : List β) (f : β → K) :
    |(l.map f).sum| ≤ (l.map (fun x => |f x|)).sum := by
  induction l with
  | nil => simp
  | cons a l ih =>
    simp only [List.map_cons, List.sum_cons]
    exact (abs_add _ _).trans (add_le_add_left ih _)

theorem sum_map_sub_eq {β : Type} (l : List β) (f g : β → K) :
    (l.map (fun x => f x - g x)).sum = (l.map f).sum - (l.map g).sum := by
  induction l with
  | nil => simp
  | cons a l ih =>
    simp only [List.map_cons, List.sum_cons, ih]
    ring

theorem sum_map_const {β : Type} (l : List β) (c : K) :
    (l.map (fun _ => c)).sum = (l.length : K) * c := by
  induction l with
  | nil => simp
  | cons a l ih =>
    simp only [List.map_cons, List.sum_cons, ih, List.length_cons, Nat.cast_succ]
    ring

theorem sum_map_nonneg {β : Type} (l : List β) (f : β → K) (h : ∀ x ∈ l, 0 ≤ f x) :
    0 ≤ (l.map f).sum := by
  apply List.sum_nonneg
  intro x hx
  simp only [List.mem_map] at hx
  obtain ⟨y, hy, rfl⟩ := hx
  exact h y hy

end Sums

/-! ## The weights as a function of the node id -/

section Weights

variable {K : Type} [LinearOrderedField K]

theorem lookup_cons_of_mem_tail {V : Type} (k : Nat) (v : V) (m : List (Nat × V))
    (hk : k ∉ keys m) (k' : Nat) (hk' : k' ∈ keys m) :
    lookup ((k, v) :: m) k' = lookup m k' := by
  have : k ≠ k' := fun h => hk (h ▸ hk')
  simp [lookup, this]

/-- With distinct keys, a sum over the entries of a map is a sum over its keys. -/
theorem sum_entries_eq_sum_keys {V : Type} (m : List (Nat × V)) (hnd : (keys m).Nodup)
    (G : Nat → Option V → K) :
    (m.map (fun e => G e.1 (some e.2))).sum = ((keys m).map (fun k => G k (lookup m k))).sum := by
  induction m with
  | nil => simp [keys]
  | cons e m ih =>
    obtain ⟨k, v⟩ := e
    simp only [keys, List.map_cons, List.nodup_cons] at hnd
    have ih' := ih hnd.2
    simp only [keys] at ih'
    simp only [keys, List.map_cons, List.sum_cons, ih', lookup, if_true]
    congr 1
    congr 1
    apply List.map_congr_left
    intro k' hk'
    have : k ≠ k' := fun h => hnd.1 (h ▸ hk')
    simp [this]

theorem totalWeight_eq (ns : List (Nat × Page K)) (hnd : (keys ns).Nodup) :
    totalWeight ns = ((keys ns).map (weightAt ns)).sum := by
  have h := sum_entries_eq_sum_keys ns hnd
    (fun _ o => match o with | none => (0 : K) | some p => p.weight)
  simpa [totalWeight, weightAt] using h

theorem leakOf_eq (ns : List (Nat × Page K)) (hnd : (keys ns).Nodup) :
    leakOf ns =
      ((keys ns).map (fun s => if outboundAt ns s = 0 then weightAt ns s else 0)).sum := by
  have h := sum_entries_eq_sum_keys ns hnd
    (fun _ o => if (match o with | none => (0 : K) | some p => p.outbound) = 0
      then (match o with | none => (0 : K) | some p => p.weight) else 0)
  simpa [leakOf, weightAt, outboundAt] using h

theorem lookup_snapshot (ns : List (Nat × Page K)) (k : Nat) :
    (lookup (snapshot ns) k).getD 0 = weightAt ns k := by
  induction ns with
  | nil => simp [snapshot, lookup, weightAt]
  | cons e ns ih =>
    obtain ⟨k', p⟩ := e
    have ih' : (lookup (List.map (fun e : Nat × Page K => (e.1, e.2.weight)) ns) k).getD 0 =
        weightAt ns k := ih
    by_cases h : k' = k
    · simp [snapshot, lookup, weightAt, h]
    · simp only [snapshot, List.map_cons, lookup, h, if_false, ih']
      simp [weightAt, lookup, h]

theorem deltaOf_eq (old ns : List (Nat × Page K)) (hnd : (keys ns).Nodup) :
    deltaOf (snapshot old) ns =
      ((keys ns).map (fun k => |weightAt ns k - weightAt old k|)).sum := by
  have h := sum_entries_eq_sum_keys ns hnd
    (fun k o => |(match o with | none => (0 : K) | some p => p.weight) - weightAt old k|)
  simpa [deltaOf, weightAt, lookup_snapshot] using h

theorem weightAt_zeroWeights (ns : List (Nat × Page K)) (k : Nat) :
    weightAt (zeroWeights ns) k = 0 := by
  induction ns with
  | nil => simp [zeroWeights, weightAt, lookup]
  | cons e ns ih =>
    obtain ⟨k', p⟩ := e
    by_cases h : k' = k
    · simp [zeroWeights, weightAt, lookup, h]
    · have ih' : weightAt (List.map (fun e : Nat × Page K => (e.1, { e.2 with weight := 0 })) ns) k
          = 0 := ih
      simp only [zeroWeights, List.map_cons, weightAt, lookup, h, if_false]
      exact ih'

theorem weightAt_initWeights (x : K) (ns : List (Nat × Page K)) (k : Nat) (hk : k ∈ keys ns) :
    weightAt (initWeights x ns) k = x := by
  induction ns with
  | nil => simp [keys] at hk
  | cons e ns ih =>
    obtain ⟨k', p⟩ := e
    by_cases h : k' = k
    · simp [initWeights, weightAt, lookup, h]
    · have hk' : k ∈ keys ns := by
        simp only [keys, List.map_cons, List.mem_cons] at hk
        rcases hk with hk | hk
        · exact absurd hk.symm h
        · exact hk
      have ih' : weightAt (List.map (fun e : Nat × Page K => (e.1, { e.2 with weight := x })) ns) k
          = x := ih hk'
      simp only [initWeights, List.map_cons, weightAt, lookup, h, if_false]
      exact ih'

theorem weightAt_update (m : List (Nat × Page K)) (t : Nat) (f : Page K → Page K) (p : Page K)
    (hp : lookup m t = some p) (k : Nat) :
    weightAt (update m t f) k = if k = t then (f p).weight else weightAt m k := by
  by_cases h : k = t
  · subst h
    simp [weightAt, lookup_update_self, hp]
  · simp [weightAt, lookup_update_ne _ _ _ _ h, h]

theorem outboundAt_of_frame (a b : List (Nat × Page K)) (h : frame a = frame b) (s : Nat) :
    outboundAt a s = outboundAt b s := by
  induction a generalizing b with
  | nil =>
    cases b with
    | nil => rfl
    | cons e b => simp [frame] at h
  | cons e a ih =>
    cases b with
    | nil => simp [frame] at h
    | cons e' b =>
      obtain ⟨k, p⟩ := e
      obtain ⟨k', p'⟩ := e'
      simp only [frame, List.map_cons, List.cons.injEq, Prod.mk.injEq] at h
      obtain ⟨⟨hk, ho, -⟩, ht⟩ := h
      subst hk
      by_cases hs : k = s
      · simp [outboundAt, lookup, hs, ho]
      · have := ih b ht
        simp only [outboundAt, lookup, hs, if_false] at this ⊢
        exact this

end Weights

/-! ## One pass of `Rank` in closed form -/

section Pass

variable {K : Type} [LinearOrderedField K]

theorem weightAt_of_lookup (m : List (Nat × Page K)) (t : Nat) (p : Page K)
    (hp : lookup m t = some p) : weightAt m t = p.weight := by
  simp [weightAt, hp]

theorem spread_weightAt (α w : K) (es : List (Nat × K)) :
    ∀ m m' : List (Nat × Page K), spread α w m es = some m' →
      ∀ k, weightAt m' k =
        weightAt m k + (es.map (fun e => if e.1 = k then α * w * e.2 else 0)).sum := by
  induction es with
  | nil =>
    intro m m' h k
    simp only [spread, Option.some.injEq] at h
    simp [h]
  | cons e es ih =>
    intro m m' h k
    obtain ⟨t, x⟩ := e
    cases hl : lookup m t with
    | none => simp [spread, hl] at h
    | some p =>
      simp only [spread, hl] at h
      rw [ih _ _ h k, weightAt_update m t _ p hl k]
      simp only [List.map_cons, List.sum_cons]
      by_cases hk : k = t
      · subst hk
        simp only [if_true, weightAt_of_lookup m k p hl]
        ring
      · simp only [hk, Ne.symm hk, if_false]
        ring

theorem distribute_weightAt (α inverse leak : K) (edges : List (Nat × List (Nat × K)))
    (old : List (Nat × K)) (S : List Nat) :
    ∀ m m' : List (Nat × Page K), distribute α inverse leak edges old m S = some m' →
      (∀ s, s ∈ S → s ∈ keys m) →
      ∀ k, weightAt m' k =
        weightAt m k +
          (S.map (fun s => (((lookup edges s).getD []).map
            (fun e => if e.1 = k then α * (lookup old s).getD 0 * e.2 else 0)).sum)).sum +
          (S.map (fun s => if s = k then (1 - α) * inverse + leak * inverse else 0)).sum := by
  induction S with
  | nil =>
    intro m m' h _ k
    simp only [distribute, Option.some.injEq] at h
    simp [h]
  | cons s S ih =>
    intro m m' h hS k
    cases hs : spread α ((lookup old s).getD 0) m ((lookup edges s).getD []) with
    | none => simp [distribute, hs] at h
    | some mid =>
      simp only [distribute, hs] at h
      have hkeys : keys mid = keys m := keys_eq_of_frame _ _ (spread_frame _ _ _ _ _ hs)
      have hsm : s ∈ keys mid := hkeys ▸ hS s (List.mem_cons_self _ _)
      obtain ⟨p, hp⟩ := (lookup_isSome_iff mid s).mpr hsm
      have hS' : ∀ s', s' ∈ S → s' ∈ keys (update mid s (fun p => { p with
          weight := p.weight + ((1 - α) * inverse + leak * inverse) })) := by
        intro s' hs'
        rw [keys_update, hkeys]
        exact hS s' (List.mem_cons_of_mem _ hs')
      rw [ih _ _ h hS' k, weightAt_update mid s _ p hp k, spread_weightAt _ _ _ _ _ hs k]
      simp only [List.map_cons, List.sum_cons]
      by_cases hk : k = s
      · subst hk
        simp only [if_true]
        rw [← weightAt_of_lookup mid k p hp, spread_weightAt _ _ _ _ _ hs k]
        ring
      · simp only [hk, Ne.symm hk, if_false]
        ring

/-- In exact arithmetic the order in which `range` visits the edges of a source
does not matter: two orders leave the same weights. -/
theorem spread_perm (α w : K) (es es' : List (Nat × K)) (hp : es.Perm es')
    (m m₁ m₂ : List (Nat × Page K)) (h₁ : spread α w m es = some m₁)
    (h₂ : spread α w m es' = some m₂) (k : Nat) : weightAt m₁ k = weightAt m₂ k := by
  rw [spread_weightAt α w es m m₁ h₁ k, spread_weightAt α w es' m m₂ h₂ k]
  congr 1
  exact (hp.map _).sum_eq

/-- Nor does the order in which `range` visits the sources. -/
theorem distribute_perm (α inverse leak : K) (edges : List (Nat × List (Nat × K)))
    (old : List (Nat × K)) (S S' : List Nat) (hp : S.Perm S') (m m₁ m₂ : List (Nat × Page K))
    (hS : ∀ s, s ∈ S → s ∈ keys m)
    (h₁ : distribute α inverse leak edges old m S = some m₁)
    (h₂ : distribute α inverse leak edges old m S' = some m₂) (k : Nat) :
    weightAt m₁ k = weightAt m₂ k := by
  have hS' : ∀ s, s ∈ S' → s ∈ keys m := fun s hs => hS s (hp.mem_iff.mpr hs)
  rw [distribute_weightAt α inverse leak edges old S m m₁ h₁ hS k,
    distribute_weightAt α inverse leak edges old S' m m₂ h₂ hS' k]
  congr 1
  · congr 1
    exact (hp.map _).sum_eq
  · exact (hp.map _).sum_eq

/-- After one pass the weight of node `k` is the sum over the nodes `s` of the
old weight of `s` times `transfer k s`, plus `(1 - α) * inverse`; the new `Δ`
is the sum over the nodes of the absolute change of weight. -/
theorem iteration_weightAt (α inverse : K) (g : Graph K) (r : Graph K × K)
    (h : iteration α inverse g = some r) (hnd : (keys g.nodes).Nodup) :
    (∀ k, k ∈ keys g.nodes →
      weightAt r.1.nodes k =
        ((keys g.nodes).map (fun s => weightAt g.nodes s * transfer α inverse g k s)).sum +
          (1 - α) * inverse) ∧
      r.2 = ((keys g.nodes).map (fun k => |weightAt r.1.nodes k - weightAt g.nodes k|)).sum := by
  have hshape := iteration_shape α inverse g r h
  have hkeys : keys r.1.nodes = keys g.nodes := keys_eq_of_frame _ _ hshape.2
  unfold iteration at h
  cases hd : distribute α inverse (leakOf g.nodes * α) g.edges (snapshot g.nodes)
      (zeroWeights g.nodes) (keys g.nodes) with
  | none => simp [hd] at h
  | some ns =>
    simp only [hd, Option.some.injEq] at h
    subst h
    simp only at hkeys ⊢
    constructor
    · intro k hk
      have hz : ∀ s, s ∈ keys g.nodes → s ∈ keys (zeroWeights g.nodes) := by
        intro s hs
        rw [keys_eq_of_frame _ _ (frame_zeroWeights g.nodes)]
        exact hs
      rw [distribute_weightAt _ _ _ _ _ _ _ _ hd hz k, weightAt_zeroWeights,
        sum_map_ite_eq_of_mem _ hnd k hk, leakOf_eq _ hnd]
      have h1 : ∀ s, (((lookup g.edges s).getD []).map
            (fun e => if e.1 = k then α * (lookup (snapshot g.nodes) s).getD 0 * e.2 else 0)).sum =
          weightAt g.nodes s *
            (α * (((lookup g.edges s).getD []).map (fun e => if e.1 = k then e.2 else 0)).sum) := by
        intro s
        rw [lookup_snapshot, ← List.sum_map_mul_left, ← List.sum_map_mul_left]
        congr 1
        apply List.map_congr_left
        intro e _
        by_cases he : e.1 = k
        · simp only [he, if_true]
          ring
        · simp [he]
      have h2 : ((keys g.nodes).map
            (fun s => if outboundAt g.nodes s = 0 then weightAt g.nodes s else 0)).sum * α *
            inverse =
          ((keys g.nodes).map (fun s => weightAt g.nodes s *
            (if outboundAt g.nodes s = 0 then α * inverse else 0))).sum := by
        rw [mul_assoc, ← List.sum_map_mul_right]
        congr 1
        apply List.map_congr_left
        intro s _
        by_cases hs : outboundAt g.nodes s = 0
        · simp [hs]
        · simp [hs]
      simp only [h1, transfer, mul_add, List.sum_map_add, ← h2]
      ring
    · rw [deltaOf_eq _ _ (hkeys ▸ hnd), hkeys]

end Pass

/-! ## The pass as a substochastic linear map -/

section Contraction

variable {K : Type} [LinearOrderedField K]

theorem length_keys {V : Type} (m : List (Nat × V)) : (keys m).length = m.length := by
  simp [keys]

theorem transfer_of_shape (α inverse : K) (g g' : Graph K) (he : g'.edges = g.edges)
    (hn : frame g'.nodes = frame g.nodes) (k s : Nat) :
    transfer α inverse g' k s = transfer α inverse g k s := by
  simp only [transfer, he, outboundAt_of_frame _ _ hn]

theorem Substochastic_of_shape (inverse : K) (g g' : Graph K) (he : g'.edges = g.edges)
    (hn : frame g'.nodes = frame g.nodes) (h : Substochastic inverse g) :
    Substochastic inverse g' := by
  have hk := keys_eq_of_frame _ _ hn
  have hl : g'.nodes.length = g.nodes.length := by
    rw [← length_keys, ← length_keys, hk]
  refine ⟨hk ▸ h.nodup, Closed_of_shape g g' he hn h.closed, by rw [hl]; exact h.unit,
    h.inverse_nonneg, ?_, ?_⟩
  · intro s e hm
    rw [he] at hm
    exact h.weight_nonneg s e hm
  · intro s hs
    rw [he, outboundAt_of_frame _ _ hn]
    exact h.column s (hk ▸ hs)

theorem Lossless_of_shape (g g' : Graph K) (he : g'.edges = g.edges)
    (hn : frame g'.nodes = frame g.nodes) (h : Lossless g) : Lossless g' := by
  intro s hs
  rw [he, outboundAt_of_frame _ _ hn]
  exact h s (keys_eq_of_frame _ _ hn ▸ hs)

theorem transfer_nonneg (α inverse : K) (g : Graph K) (hα : 0 ≤ α) (h : Substochastic inverse g)
    (k s : Nat) : 0 ≤ transfer α inverse g k s := by
  unfold transfer
  apply add_nonneg
  · apply mul_nonneg hα
    apply sum_map_nonneg
    intro e he
    by_cases hk : e.1 = k
    · simp only [hk, if_true]
      exact h.weight_nonneg s e he
    · simp [hk]
  · by_cases ho : outboundAt g.nodes s = 0
    · simp only [ho, if_true]
      exact mul_nonneg hα h.inverse_nonneg
    · simp [ho]

/-- The column of `transfer` that belongs to `s` sums to `α` times the sum of
the edge weights of `s`, plus `α` when the outbound total of `s` is zero. -/
theorem sum_transfer (α inverse : K) (g : Graph K) (h : Substochastic inverse g) (s : Nat) :
    ((keys g.nodes).map (fun k => transfer α inverse g k s)).sum =
      α * (rowSum g.edges s + (if outboundAt g.nodes s = 0 then 1 else 0)) := by
  have h1 : ((keys g.nodes).map (fun k =>
      (((lookup g.edges s).getD []).map (fun e => if e.1 = k then e.2 else 0)).sum)).sum =
      rowSum g.edges s := by
    rw [sum_map_swap]
    unfold rowSum
    congr 1
    apply List.map_congr_left
    intro e he
    exact sum_map_ite_eq_of_mem' _ h.nodup e.1
      (h.closed s e.1 (mem_keys_of_mem _ e.1 e.2 he)) e.2
  simp only [transfer, List.sum_map_add, List.sum_map_mul_left, h1, sum_map_const, length_keys]
  by_cases ho : outboundAt g.nodes s = 0
  · simp only [ho, if_true]
    have := h.unit
    linear_combination α * this
  · simp [ho]

theorem sum_transfer_le (α inverse : K) (g : Graph K) (hα : 0 ≤ α) (h : Substochastic inverse g)
    (s : Nat) (hs : s ∈ keys g.nodes) :
    ((keys g.nodes).map (fun k => transfer α inverse g k s)).sum ≤ α := by
  rw [sum_transfer α inverse g h s]
  calc α * (rowSum g.edges s + (if outboundAt g.nodes s = 0 then 1 else 0)) ≤ α * 1 :=
        mul_le_mul_of_nonneg_left (h.column s hs) hα
    _ = α := mul_one α

/-- One pass keeps the sum of the weights at one when no weight is lost. -/
theorem iteration_totalWeight (α inverse : K) (g : Graph K) (r : Graph K × K)
    (h : iteration α inverse g = some r) (hs : Substochastic inverse g) (hl : Lossless g)
    (hone : totalWeight g.nodes = 1) : totalWeight r.1.nodes = 1 := by
  have hshape := iteration_shape α inverse g r h
  have hkeys : keys r.1.nodes = keys g.nodes := keys_eq_of_frame _ _ hshape.2
  have hw := (iteration_weightAt α inverse g r h hs.nodup).1
  rw [totalWeight_eq _ (hkeys ▸ hs.nodup), hkeys]
  rw [totalWeight_eq _ hs.nodup] at hone
  have h1 : ((keys g.nodes).map (weightAt r.1.nodes)).sum =
      ((keys g.nodes).map (fun k =>
        ((keys g.nodes).map (fun s => weightAt g.nodes s * transfer α inverse g k s)).sum +
          (1 - α) * inverse)).sum := by
    congr 1
    apply List.map_congr_left
    intro k hk
    exact hw k hk
  rw [h1, List.sum_map_add, sum_map_const, length_keys, sum_map_swap_keys]
  have h2 : ((keys g.nodes).map (fun s =>
      ((keys g.nodes).map (fun k => weightAt g.nodes s * transfer α inverse g k s)).sum)).sum =
      ((keys g.nodes).map (fun s => weightAt g.nodes s * α)).sum := by
    congr 1
    apply List.map_congr_left
    intro s hsk
    rw [List.sum_map_mul_left, sum_transfer α inverse g hs s, hl s hsk, mul_one]
  rw [h2, List.sum_map_mul_right, hone]
  have := hs.unit
  linear_combination (1 - α) * this

/-- Two consecutive passes: the second changes the weights by at most `α`
times what the first changed them by. -/
theorem iteration_contracts (α inverse : K) (g : Graph K) (r₁ r₂ : Graph K × K) (hα : 0 ≤ α)
    (hs : Substochastic inverse g) (h₁ : iteration α inverse g = some r₁)
    (h₂ : iteration α inverse r₁.1 = some r₂) : r₂.2 ≤ α * r₁.2 := by
  have hshape := iteration_shape α inverse g r₁ h₁
  have hkeys : keys r₁.1.nodes = keys g.nodes := keys_eq_of_frame _ _ hshape.2
  have hw₁ := iteration_weightAt α inverse g r₁ h₁ hs.nodup
  have hw₂ := iteration_weightAt α inverse r₁.1 r₂ h₂ (hkeys ▸ hs.nodup)
  rw [hkeys] at hw₂
  rw [hw₂.2, hw₁.2]
  have hdiff : ∀ k, k ∈ keys g.nodes →
      |weightAt r₂.1.nodes k - weightAt r₁.1.nodes k| ≤
        ((keys g.nodes).map (fun s =>
          |weightAt r₁.1.nodes s - weightAt g.nodes s| * transfer α inverse g k s)).sum := by
    intro k hk
    have e : weightAt r₂.1.nodes k - weightAt r₁.1.nodes k =
        ((keys g.nodes).map (fun s =>
          (weightAt r₁.1.nodes s - weightAt g.nodes s) * transfer α inverse g k s)).sum := by
      rw [hw₂.1 k hk, hw₁.1 k hk]
      have : ∀ s, (weightAt r₁.1.nodes s - weightAt g.nodes s) * transfer α inverse g k s =
          weightAt r₁.1.nodes s * transfer α inverse r₁.1 k s -
            weightAt g.nodes s * transfer α inverse g k s := by
        intro s
        rw [transfer_of_shape α inverse g r₁.1 hshape.1 hshape.2]
        ring
      simp only [this, sum_map_sub_eq]
      ring
    rw [e]
    refine (abs_sum_map_le _ _).trans (le_of_eq ?_)
    congr 1
    apply List.map_congr_left
    intro s _
    rw [abs_mul, abs_of_nonneg (transfer_nonneg α inverse g hα hs k s)]
  calc ((keys g.nodes).map (fun k => |weightAt r₂.1.nodes k - weightAt r₁.1.nodes k|)).sum
      ≤ ((keys g.nodes).map (fun k => ((keys g.nodes).map (fun s =>
          |weightAt r₁.1.nodes s - weightAt g.nodes s| * transfer α inverse g k s)).sum)).sum :=
        List.sum_le_sum hdiff
    _ = ((keys g.nodes).map (fun s => |weightAt r₁.1.nodes s - weightAt g.nodes s| *
          ((keys g.nodes).map (fun k => transfer α inverse g k s)).sum)).sum := by
        rw [sum_map_swap_keys]
        congr 1
        apply List.map_congr_left
        intro s _
        rw [List.sum_map_mul_left]
    _ ≤ ((keys g.nodes).map (fun s =>
          |weightAt r₁.1.nodes s - weightAt g.nodes s| * α)).sum := by
        apply List.sum_le_sum
        intro s hsk
        exact mul_le_mul_of_nonneg_left (sum_transfer_le α inverse g hα hs s hsk) (abs_nonneg _)
    _ = α * ((keys g.nodes).map (fun k => |weightAt r₁.1.nodes k - weightAt g.nodes k|)).sum := by
        rw [List.sum_map_mul_right, mul_comm]

end Contraction

/-! ## Graphs built by `Add` and `Link` with non-negative weights -/

section BuiltFacts

variable {K : Type} [LinearOrderedField K]

theorem outboundAt_Add (E : Escapers) (g : Graph K) (u : URL) (s : Nat) :
    outboundAt (g.Add E u).nodes s = outboundAt g.nodes s := by
  cases hl : lookup g.nodes (urlsum E u) with
  | some p => rw [Add_of_present E g u p hl]
  | none =>
    rw [Add_nodes_of_absent E g u hl]
    by_cases hs : s = urlsum E u
    · subst hs
      simp [outboundAt, lookup_assign_self, hl]
    · simp [outboundAt, lookup_assign_ne _ _ _ _ hs]

theorem outboundAt_raise (m : List (Nat × Page K)) (k : Nat) (w : K) (p : Page K)
    (hp : lookup m k = some p) (s : Nat) :
    outboundAt (update m k (fun p => { p with outbound := p.outbound + w })) s =
      outboundAt m s + if s = k then w else 0 := by
  by_cases hs : s = k
  · subst hs
    simp [outboundAt, lookup_update_self, hp]
  · simp [outboundAt, lookup_update_ne _ _ _ _ hs, hs]

theorem sum_assign_add (m : List (Nat × K)) (t : Nat) (w : K) :
    ((assign m t ((lookup m t).getD 0 + w)).map Prod.snd).sum = (m.map Prod.snd).sum + w := by
  induction m with
  | nil => simp [assign, lookup]
  | cons e m ih =>
    obtain ⟨k, x⟩ := e
    by_cases h : k = t
    · simp only [assign, lookup, h, if_true, Option.getD_some, List.map_cons, List.sum_cons]
      ring
    · simp only [assign, lookup, h, if_false, List.map_cons, List.sum_cons, ih]
      ring

theorem rowSum_assign (edges : List (Nat × List (Nat × K))) (a : Nat) (m : List (Nat × K))
    (s : Nat) :
    rowSum (assign edges a m) s = if s = a then (m.map Prod.snd).sum else rowSum edges s := by
  by_cases hs : s = a
  · subst hs
    simp [rowSum, lookup_assign_self]
  · simp [rowSum, lookup_assign_ne _ _ _ _ hs, hs]

theorem Built_facts (E : Escapers) (g : Graph K) (h : Built E g) :
    Sound E g ∧ (∀ s e, e ∈ (lookup g.edges s).getD [] → 0 ≤ e.2) ∧
      ∀ s, rowSum g.edges s ≤ outboundAt g.nodes s := by
  induction h with
  | new =>
    refine ⟨Sound_NewGraph E, ?_, ?_⟩
    · intro s e he
      simp [NewGraph, lookup] at he
    · intro s
      simp [NewGraph, rowSum, outboundAt, lookup]
  | add g u _ ih =>
    refine ⟨Sound_Add E g u ih.1, ?_, ?_⟩
    · intro s e he
      rw [Add_edges] at he
      exact ih.2.1 s e he
    · intro s
      rw [Add_edges, outboundAt_Add]
      exact ih.2.2 s
  | link g s t w hw _ ih =>
    refine ⟨Sound_Link E g s t w ih.1, ?_⟩
    rcases Link_eq E g s t w with ⟨-, he⟩ | ⟨sp, hs, -, he⟩ | ⟨sp, tp, hs, ht, hid, he⟩
    · rw [he]
      exact ih.2
    · rw [he]
      rw [Get_eq_lookup] at hs
      refine ⟨ih.2.1, fun a => ?_⟩
      simp only [outboundAt_raise _ _ _ sp hs]
      have := ih.2.2 a
      by_cases ha : a = urlsum E s
      · simp only [ha, if_true] at this ⊢
        linarith
      · simp only [ha, if_false, add_zero]
        exact this
    · rw [he]
      have hsid := (ID_of_Get E g ih.1 s sp hs).1
      rw [Get_eq_lookup] at hs
      constructor
      · intro a e hmem
        by_cases ha : a = sp.ID E
        · subst ha
          simp only [lookup_assign_self, Option.getD_some] at hmem
          rcases mem_assign _ _ _ _ hmem with h1 | h1
          · rw [h1]
            simp only
            have : 0 ≤ (lookup ((lookup g.edges (sp.ID E)).getD []) (tp.ID E)).getD 0 := by
              cases hl : lookup ((lookup g.edges (sp.ID E)).getD []) (tp.ID E) with
              | none => simp
              | some x =>
                simp only [Option.getD_some]
                exact ih.2.1 (sp.ID E) (tp.ID E, x) (mem_of_lookup _ _ _ hl)
            linarith
          · exact ih.2.1 (sp.ID E) e h1
        · simp only [lookup_assign_ne _ _ _ _ ha] at hmem
          exact ih.2.1 a e hmem
      · intro a
        simp only [outboundAt_raise _ _ _ sp hs, rowSum_assign, sum_assign_add, hsid]
        have := ih.2.2 a
        by_cases ha : a = urlsum E s
        · simp only [ha, if_true] at this ⊢
          unfold rowSum at this
          linarith
        · simp only [ha, if_false, add_zero]
          exact this

theorem Built_twoNodes : Built plainEscapers twoNodes :=
  Built.add _ _ (Built.add _ _ Built.new)

theorem Built_linkedPair : Built plainEscapers linkedPair :=
  Built.link _ _ _ _ (by norm_num) Built_twoNodes

end BuiltFacts

/-! ## The state in which the loop of `Rank` is entered -/

section Start

variable {K : Type} [LinearOrderedField K]

theorem lookup_normalize (nodes : List (Nat × Page K)) (es : List (Nat × List (Nat × K))) :
    ∀ es', normalize nodes es = some es' → ∀ s,
      lookup es' s = (lookup es s).map (fun m =>
        if outboundAt nodes s > 0 then m.map (fun e => (e.1, e.2 / outboundAt nodes s)) else m) := by
  induction es with
  | nil =>
    intro es' h s
    simp only [normalize, Option.some.injEq] at h
    simp [← h, lookup]
  | cons e es ih =>
    intro es' h s
    obtain ⟨s₀, m⟩ := e
    cases hl : lookup nodes s₀ with
    | none => simp [normalize, hl] at h
    | some p =>
      cases hr : normalize nodes es with
      | none => simp [normalize, hl, hr] at h
      | some r =>
        simp only [normalize, hl, hr, Option.some.injEq] at h
        rw [← h]
        by_cases hs : s₀ = s
        · subst hs
          simp [lookup, outboundAt, hl]
        · simp only [lookup, hs, if_false]
          exact ih r hr s

theorem rowSum_normalize (nodes : List (Nat × Page K)) (es es' : List (Nat × List (Nat × K)))
    (h : normalize nodes es = some es') (s : Nat) :
    rowSum es' s =
      if outboundAt nodes s > 0 then rowSum es s / outboundAt nodes s else rowSum es s := by
  unfold rowSum
  rw [lookup_normalize nodes es es' h s]
  cases hl : lookup es s with
  | none => simp
  | some m =>
    by_cases ho : outboundAt nodes s > 0
    · simp only [Option.map_some', ho, if_true, Option.getD_some, List.map_map]
      rw [div_eq_mul_inv, ← List.sum_map_mul_right]
      congr 1
      apply List.map_congr_left
      intro e _
      simp [div_eq_mul_inv]
    · simp [ho]

theorem nonneg_normalize (nodes : List (Nat × Page K)) (es es' : List (Nat × List (Nat × K)))
    (h : normalize nodes es = some es') (hn : ∀ s e, e ∈ (lookup es s).getD [] → 0 ≤ e.2)
    (s : Nat) (e : Nat × K) (he : e ∈ (lookup es' s).getD []) : 0 ≤ e.2 := by
  rw [lookup_normalize nodes es es' h s] at he
  cases hl : lookup es s with
  | none => simp [hl] at he
  | some m =>
    have hm : ∀ e, e ∈ m → 0 ≤ e.2 := by
      intro e he
      have := hn s e
      simp only [hl, Option.getD_some] at this
      exact this he
    by_cases ho : outboundAt nodes s > 0
    · simp only [hl, Option.map_some', ho, if_true, Option.getD_some, List.mem_map] at he
      obtain ⟨e₀, he₀, rfl⟩ := he
      exact div_nonneg (hm e₀ he₀) (le_of_lt ho)
    · simp only [hl, Option.map_some', ho, if_false, Option.getD_some] at he
      exact hm e he

theorem rowSum_nonneg (es : List (Nat × List (Nat × K)))
    (hn : ∀ s e, e ∈ (lookup es s).getD [] → 0 ≤ e.2) (s : Nat) : 0 ≤ rowSum es s := by
  unfold rowSum
  exact sum_map_nonneg _ _ (fun e he => hn s e he)

theorem totalWeight_initWeights (x : K) (ns : List (Nat × Page K)) :
    totalWeight (initWeights x ns) = (ns.length : K) * x := by
  simp only [totalWeight, initWeights, List.map_map, Function.comp_def]
  exact sum_map_const ns x

theorem length_initWeights (x : K) (ns : List (Nat × Page K)) :
    (initWeights x ns).length = ns.length := by
  simp [initWeights]

/-- On a graph built by `Add` and `Link` with non-negative weights that has a
node, `Rank` enters its loop in a state whose weights sum to one and on which a
pass is a substochastic map; the map loses no weight when the graph is
balanced. -/
theorem rankStart_Built (E : Escapers) (g : Graph K) (hb : Built E g) (hne : g.nodes ≠ []) :
    ∃ g0, rankStart g = some g0 ∧ Substochastic (1 / (g.nodes.length : K)) g0 ∧
      totalWeight g0.nodes = 1 ∧ keys g0.nodes = keys g.nodes ∧ (Balanced g → Lossless g0) := by
  obtain ⟨hsound, hnn, hrow⟩ := Built_facts E g hb
  obtain ⟨g0, h0, hn, he⟩ := rankStart_isSome E g hsound
  have hsound0 : Sound E g0 := Sound_of_shape E g g0 hn he hsound
  have hkeys : keys g0.nodes = keys g.nodes := keys_eq_of_frame _ _ hn
  have hlen : (g.nodes.length : K) ≠ 0 := by
    have : g.nodes.length ≠ 0 := fun h => hne (List.length_eq_zero.mp h)
    exact_mod_cast this
  have hunit : (g.nodes.length : K) * (1 / (g.nodes.length : K)) = 1 := by
    field_simp
  unfold rankStart at h0
  cases hnorm : normalize g.nodes g.edges with
  | none => simp [hnorm] at h0
  | some es =>
    simp only [hnorm, Option.some.injEq] at h0
    subst h0
    simp only at hn he hsound0 hkeys ⊢
    have hout : ∀ s, outboundAt (initWeights (1 / (g.nodes.length : K)) g.nodes) s =
        outboundAt g.nodes s := fun s => outboundAt_of_frame _ _ hn s
    refine ⟨{ edges := es, nodes := initWeights (1 / (g.nodes.length : K)) g.nodes },
      by simp only [rankStart, hnorm],
      ⟨hsound0.nodesNodup, Closed_of_Sound E _ hsound0, ?_, ?_, ?_, ?_⟩, ?_, hkeys, ?_⟩
    · simp only [length_initWeights]
      exact hunit
    · exact div_nonneg zero_le_one (Nat.cast_nonneg _)
    · exact nonneg_normalize g.nodes g.edges es hnorm hnn
    · intro s _
      simp only [hout, rowSum_normalize g.nodes g.edges es hnorm s]
      have h1 := hrow s
      have h2 := rowSum_nonneg g.edges hnn s
      by_cases ho : outboundAt g.nodes s > 0
      · have hne0 : outboundAt g.nodes s ≠ 0 := ne_of_gt ho
        simp only [ho, if_true, hne0, if_false, add_zero]
        exact (div_le_one ho).mpr h1
      · have ho0 : outboundAt g.nodes s = 0 := le_antisymm (not_lt.mp ho) (h2.trans h1)
        have hr0 : rowSum g.edges s = 0 := le_antisymm (ho0 ▸ h1) h2
        simp [ho0, hr0]
    · rw [totalWeight_initWeights]
      exact hunit
    · intro hbal s hs
      simp only at hs
      rw [hkeys] at hs
      simp only [hout, rowSum_normalize g.nodes g.edges es hnorm s]
      have h1 := hbal s hs
      have h2 := rowSum_nonneg g.edges hnn s
      by_cases ho : outboundAt g.nodes s > 0
      · have hne0 : outboundAt g.nodes s ≠ 0 := ne_of_gt ho
        simp only [ho, if_true, hne0, if_false, add_zero]
        rw [← h1]
        exact div_self hne0
      · have ho0 : outboundAt g.nodes s = 0 := le_antisymm (not_lt.mp ho) (h1 ▸ h2)
        have hr0 : rowSum g.edges s = 0 := by rw [← h1, ho0]
        simp [ho0, hr0]

end Start

/-! ## The loop of `Rank` -/

section Loop

variable {K : Type} [LinearOrderedField K]

theorem passes_succ_left (α inverse : K) (start : Graph K × K) (n : Nat) :
    passes α inverse start (n + 1) =
      match iteration α inverse start.1 with
      | none => none
      | some r => passes α inverse r n := by
  induction n with
  | zero =>
    simp only [passes]
    cases iteration α inverse start.1 <;> rfl
  | succ n ih =>
    rw [passes, ih]
    cases iteration α inverse start.1 with
    | none => rfl
    | some r => simp only [passes]

theorem passes_shape (α inverse : K) (start : Graph K × K) (n : Nat) :
    ∀ r, passes α inverse start n = some r →
      r.1.edges = start.1.edges ∧ frame r.1.nodes = frame start.1.nodes := by
  induction n with
  | zero =>
    intro r h
    simp only [passes, Option.some.injEq] at h
    rw [← h]
    exact ⟨rfl, rfl⟩
  | succ n ih =>
    intro r h
    simp only [passes] at h
    cases hp : passes α inverse start n with
    | none => simp [hp] at h
    | some rp =>
      simp only [hp] at h
      have h1 := ih rp hp
      have h2 := iteration_shape α inverse rp.1 r h
      exact ⟨h2.1.trans h1.1, h2.2.trans h1.2⟩

theorem rankLoop_of_passes (α ε inverse : K) (n : Nat) :
    ∀ (start r : Graph K × K), passes α inverse start n = some r → r.2 ≤ ε →
      (∀ i, i < n → ∃ ri, passes α inverse start i = some ri ∧ ε < ri.2) →
      ∀ fuel, n ≤ fuel → rankLoop α ε inverse fuel start.2 start.1 = Outcome.done r.1 := by
  induction n with
  | zero =>
    intro start r h hr _ fuel _
    simp only [passes, Option.some.injEq] at h
    subst h
    have : ¬ start.2 > ε := not_lt.mpr hr
    cases fuel <;> simp [rankLoop, this]
  | succ n ih =>
    intro start r h hr hbig fuel hfuel
    obtain ⟨r0, h0, hgt⟩ := hbig 0 (Nat.succ_pos n)
    simp only [passes, Option.some.injEq] at h0
    rw [← h0] at hgt
    rw [passes_succ_left] at h
    cases hit : iteration α inverse start.1 with
    | none => simp [hit] at h
    | some r1 =>
      simp only [hit] at h
      obtain ⟨f, rfl⟩ : ∃ f, fuel = f + 1 := ⟨fuel - 1, by omega⟩
      have hgt' : start.2 > ε := hgt
      simp only [rankLoop, hgt', if_true, hit]
      refine ih r1 r h hr ?_ f (by omega)
      intro i hi
      obtain ⟨ri, hri, hlt⟩ := hbig (i + 1) (by omega)
      rw [passes_succ_left] at hri
      simp only [hit] at hri
      exact ⟨ri, hri, hlt⟩

theorem rankLoop_done_passes (α ε inverse : K) (fuel : Nat) :
    ∀ (Δ : K) (g g' : Graph K), rankLoop α ε inverse fuel Δ g = Outcome.done g' →
      ∃ n r, passes α inverse (g, Δ) n = some r ∧ r.1 = g' := by
  induction fuel with
  | zero =>
    intro Δ g g' h
    by_cases hΔ : Δ > ε
    · simp [rankLoop, hΔ] at h
    · simp only [rankLoop, hΔ, if_false, Outcome.done.injEq] at h
      exact ⟨0, (g, Δ), rfl, h⟩
  | succ fuel ih =>
    intro Δ g g' h
    by_cases hΔ : Δ > ε
    · cases hit : iteration α inverse g with
      | none => simp [rankLoop, hΔ, hit] at h
      | some r1 =>
        simp only [rankLoop, hΔ, if_true, hit] at h
        obtain ⟨n, r, hr, hg'⟩ := ih r1.2 r1.1 g' h
        refine ⟨n + 1, r, ?_, hg'⟩
        rw [passes_succ_left]
        simp only [hit]
        exact hr
    · simp only [rankLoop, hΔ, if_false, Outcome.done.injEq] at h
      exact ⟨0, (g, Δ), rfl, h⟩

/-- Once a pass has been made, the loop stops within `n` more passes as soon as
`α ^ n` times the last `Δ` is at most `ε`. -/
theorem loop_stops (α ε inverse : K) (hα : 0 ≤ α) (n : Nat) :
    ∀ (gp : Graph K) (r : Graph K × K), Substochastic inverse gp →
      iteration α inverse gp = some r → α ^ n * r.2 ≤ ε →
      ∃ m r', passes α inverse r m = some r' ∧ r'.2 ≤ ε ∧
        ∀ i, i < m → ∃ ri, passes α inverse r i = some ri ∧ ε < ri.2 := by
  induction n with
  | zero =>
    intro gp r _ _ hle
    simp only [pow_zero, one_mul] at hle
    exact ⟨0, r, rfl, hle, fun i hi => absurd hi (Nat.not_lt_zero i)⟩
  | succ n ih =>
    intro gp r hs hit hle
    by_cases hΔ : r.2 ≤ ε
    · exact ⟨0, r, rfl, hΔ, fun i hi => absurd hi (Nat.not_lt_zero i)⟩
    · have hshape := iteration_shape α inverse gp r hit
      have hs' : Substochastic inverse r.1 := Substochastic_of_shape inverse gp r.1 hshape.1 hshape.2 hs
      obtain ⟨r2, hit2⟩ := iteration_isSome α inverse r.1 hs'.closed
      have hc : r2.2 ≤ α * r.2 := iteration_contracts α inverse gp r r2 hα hs hit hit2
      have hle2 : α ^ n * r2.2 ≤ ε := by
        calc α ^ n * r2.2 ≤ α ^ n * (α * r.2) := mul_le_mul_of_nonneg_left hc (pow_nonneg hα n)
          _ = α ^ (n + 1) * r.2 := by ring
          _ ≤ ε := hle
      obtain ⟨m, r', hp, hr', hbig⟩ := ih r.1 r2 hs' hit2 hle2
      refine ⟨m + 1, r', ?_, hr', ?_⟩
      · rw [passes_succ_left]
        simp only [hit2]
        exact hp
      · intro i hi
        cases i with
        | zero => exact ⟨r, rfl, not_le.mp hΔ⟩
        | succ j =>
          obtain ⟨ri, hri, hlt⟩ := hbig j (by omega)
          refine ⟨ri, ?_, hlt⟩
          rw [passes_succ_left]
          simp only [hit2]
          exact hri

theorem iteration_delta_nonneg (α inverse : K) (g : Graph K) (r : Graph K × K)
    (h : iteration α inverse g = some r) (hnd : (keys g.nodes).Nodup) : 0 ≤ r.2 := by
  rw [(iteration_weightAt α inverse g r h hnd).2]
  exact sum_map_nonneg _ _ (fun k _ => abs_nonneg _)

theorem exists_pow_mul_le [Archimedean K] (α ε Δ : K) (hα1 : α < 1) (hε : 0 < ε)
    (hΔ : 0 ≤ Δ) : ∃ n : Nat, α ^ n * Δ ≤ ε := by
  rcases eq_or_lt_of_le hΔ with h | h
  · exact ⟨0, by rw [← h]; simpa using le_of_lt hε⟩
  · obtain ⟨n, hn⟩ := exists_pow_lt_of_lt_one (div_pos hε h) hα1
    refine ⟨n, le_of_lt ?_⟩
    have := (lt_div_iff₀ h).mp hn
    exact this

/-- From a substochastic start the loop stops: there is a number `n` of passes
after which `Δ ≤ ε`, while `Δ > ε` before each of them. -/
theorem passes_stop [Archimedean K] (α ε inverse : K) (hα0 : 0 ≤ α) (hα1 : α < 1) (hε : 0 < ε)
    (g0 : Graph K) (hs : Substochastic inverse g0) :
    ∃ n r, passes α inverse (g0, 1) n = some r ∧ r.2 ≤ ε ∧
      ∀ i, i < n → ∃ ri, passes α inverse (g0, 1) i = some ri ∧ ε < ri.2 := by
  by_cases h1 : (1 : K) ≤ ε
  · exact ⟨0, (g0, 1), rfl, h1, fun i hi => absurd hi (Nat.not_lt_zero i)⟩
  · obtain ⟨r1, hit⟩ := iteration_isSome α inverse g0 hs.closed
    obtain ⟨n, hn⟩ := exists_pow_mul_le α ε r1.2 hα1 hε
      (iteration_delta_nonneg α inverse g0 r1 hit hs.nodup)
    obtain ⟨m, r', hp, hr', hbig⟩ := loop_stops α ε inverse hα0 n g0 r1 hs hit hn
    refine ⟨m + 1, r', ?_, hr', ?_⟩
    · rw [passes_succ_left]
      simp only [hit]
      exact hp
    · intro i hi
      cases i with
      | zero => exact ⟨(g0, 1), rfl, not_le.mp h1⟩
      | succ j =>
        obtain ⟨ri, hri, hlt⟩ := hbig j (by omega)
        refine ⟨ri, ?_, hlt⟩
        rw [passes_succ_left]
        simp only [hit]
        exact hri

theorem passes_totalWeight (α inverse : K) (start : Graph K × K)
    (hs : Substochastic inverse start.1) (hl : Lossless start.1)
    (hone : totalWeight start.1.nodes = 1) (n : Nat) :
    ∀ r, passes α inverse start n = some r → totalWeight r.1.nodes = 1 := by
  induction n with
  | zero =>
    intro r h
    simp only [passes, Option.some.injEq] at h
    rw [← h]
    exact hone
  | succ n ih =>
    intro r h
    simp only [passes] at h
    cases hp : passes α inverse start n with
    | none => simp [hp] at h
    | some rp =>
      simp only [hp] at h
      have hsh := passes_shape α inverse start n rp hp
      exact iteration_totalWeight α inverse rp.1 r h
        (Substochastic_of_shape inverse start.1 rp.1 hsh.1 hsh.2 hs)
        (Lossless_of_shape start.1 rp.1 hsh.1 hsh.2 hl) (ih rp hp)

end Loop

/-! ## Termination of `Rank` (C5) -/

section Termination

variable {K : Type} [LinearOrderedField K]

/-- C5: on a graph with at least one node, built from `NewGraph` by `Add` and by
`Link` with non-negative weights, and for `0 ≤ α < 1` and `ε > 0`, the loop of
`Rank` stops after a finite number `n` of passes (exact arithmetic): `Δ > ε`
before each of the `n` passes, `Δ ≤ ε` after the last, `Rank` returns the graph
of that state whenever it is allowed at least `n` passes, and if a pass was
made this `Δ` is the sum over the nodes of the absolute change of weight in
the last pass. -/
theorem Rank_converges [Archimedean K] (E : Escapers) (g : Graph K) (α ε : K)
    (hb : Built E g) (hne : g.nodes ≠ []) (hα0 : 0 ≤ α) (hα1 : α < 1) (hε : 0 < ε) :
    ∃ (n : Nat) (g0 : Graph K) (r : Graph K × K),
      rankStart g = some g0 ∧
        passes α (1 / (g.nodes.length : K)) (g0, 1) n = some r ∧
        (∀ i, i < n →
          ∃ ri, passes α (1 / (g.nodes.length : K)) (g0, 1) i = some ri ∧ ε < ri.2) ∧
        r.2 ≤ ε ∧
        (∀ fuel, n ≤ fuel → g.Rank fuel α ε = Outcome.done r.1) ∧
        ∀ m rp, n = m + 1 → passes α (1 / (g.nodes.length : K)) (g0, 1) m = some rp →
          r.2 = ((keys g.nodes).map
            (fun k => |weightAt r.1.nodes k - weightAt rp.1.nodes k|)).sum := by
  obtain ⟨g0, h0, hs, -, hkeys, -⟩ := rankStart_Built E g hb hne
  obtain ⟨n, r, hp, hr, hbig⟩ := passes_stop α ε (1 / (g.nodes.length : K)) hα0 hα1 hε g0 hs
  refine ⟨n, g0, r, h0, hp, hbig, hr, ?_, ?_⟩
  · intro fuel hfuel
    simp only [Graph.Rank, h0]
    exact rankLoop_of_passes α ε (1 / (g.nodes.length : K)) n (g0, 1) r hp hr hbig fuel hfuel
  · intro m rp hn hrp
    subst hn
    simp only [passes, hrp] at hp
    have hsh := passes_shape α (1 / (g.nodes.length : K)) (g0, 1) m rp hrp
    have hs' := Substochastic_of_shape (1 / (g.nodes.length : K)) g0 rp.1 hsh.1 hsh.2 hs
    have hk : keys rp.1.nodes = keys g.nodes := (keys_eq_of_frame _ _ hsh.2).trans hkeys
    rw [← hk]
    exact (iteration_weightAt α (1 / (g.nodes.length : K)) rp.1 r hp hs'.nodup).2

set_option maxRecDepth 100000 in
/-- C5 on the graph `a → b` (weight 1) with `α = 1/2` and `ε = 1/8`. -/
theorem Rank_converges_witness :
    Built plainEscapers linkedPair ∧ linkedPair.nodes ≠ [] ∧ (0 : ℚ) ≤ 1 / 2 ∧
      (1 / 2 : ℚ) < 1 ∧ (0 : ℚ) < 1 / 8 ∧
      ∃ (n : Nat) (g0 : Graph ℚ) (r : Graph ℚ × ℚ),
        rankStart linkedPair = some g0 ∧
          passes (1 / 2) (1 / (linkedPair.nodes.length : ℚ)) (g0, 1) n = some r ∧
          (∀ i, i < n →
            ∃ ri, passes (1 / 2) (1 / (linkedPair.nodes.length : ℚ)) (g0, 1) i = some ri ∧
              1 / 8 < ri.2) ∧
          r.2 ≤ 1 / 8 ∧
          (∀ fuel, n ≤ fuel → linkedPair.Rank fuel (1 / 2) (1 / 8) = Outcome.done r.1) ∧
          ∀ m rp, n = m + 1 →
            passes (1 / 2) (1 / (linkedPair.nodes.length : ℚ)) (g0, 1) m = some rp →
            r.2 = ((keys linkedPair.nodes).map
              (fun k => |weightAt r.1.nodes k - weightAt rp.1.nodes k|)).sum :=
  ⟨Built_linkedPair, by decide, by norm_num, by norm_num, by norm_num,
    Rank_converges plainEscapers linkedPair (1 / 2) (1 / 8) Built_linkedPair (by decide)
      (by norm_num) (by norm_num) (by norm_num)⟩

end Termination

/-! ## The sum of the weights after `Rank` (C2) -/

section Mass

variable {K : Type} [LinearOrderedField K]

set_option maxRecDepth 100000 in
/-- C2, as stated, fails, with `α = 1/2` and `ε = 1/8` in each case.  After a
`Link` whose target is not a node, `Rank` returns after two passes with the
weights summing to `11/16`; after a `Link` with the weight `-1` it returns with
the sum `3/8`; both graphs have two nodes, so the tolerance is `1/4`.  On the
empty graph `Rank` returns with the sum `0` and the tolerance is `0`. -/
theorem Rank_loses_weight :
    Reachable plainEscapers rejectedLink ∧
      (rejectedLink.Rank 2 (1 / 2) (1 / 8)).result.map (fun g => totalWeight g.nodes) =
        some (11 / 16) ∧
      ¬ |(11 / 16 : ℚ) - 1| ≤ 1 / 8 * (rejectedLink.nodes.length : ℚ) ∧
      Reachable plainEscapers negativeLink ∧
      (negativeLink.Rank 2 (1 / 2) (1 / 8)).result.map (fun g => totalWeight g.nodes) =
        some (3 / 8) ∧
      ¬ |(3 / 8 : ℚ) - 1| ≤ 1 / 8 * (negativeLink.nodes.length : ℚ) ∧
      ((NewGraph : Graph ℚ).Rank 1 (1 / 2) (1 / 8)).result.map (fun g => totalWeight g.nodes) =
        some 0 ∧
      ¬ |(0 : ℚ) - 1| ≤ 1 / 8 * ((NewGraph : Graph ℚ).nodes.length : ℚ) := by
  refine ⟨Reachable.link _ _ _ _ (Reachable.add _ _ (Reachable.add _ _ Reachable.new)),
    by decide!, by decide!,
    Reachable.link _ _ _ _ (Reachable.add _ _ (Reachable.add _ _ Reachable.new)),
    by decide!, by decide!, by decide!, by decide!⟩

/-- C2, amended: on a graph with at least one node, built from `NewGraph` by
`Add` and by `Link` with non-negative weights, in which every outbound total is
the sum of the weights of the edges of its node, the weights sum to one when
the loop of `Rank` is entered and after every pass (exact arithmetic), so
whenever `Rank` returns they sum to exactly one, within `ε` times the number
of nodes. -/
theorem Rank_keeps_total_weight (E : Escapers) (g : Graph K) (α ε : K) (hb : Built E g)
    (hbal : Balanced g) (hne : g.nodes ≠ []) (hε : 0 < ε) :
    ∃ g0, rankStart g = some g0 ∧
      (∀ n r, passes α (1 / (g.nodes.length : K)) (g0, 1) n = some r →
        totalWeight r.1.nodes = 1) ∧
      ∀ fuel g', g.Rank fuel α ε = Outcome.done g' →
        totalWeight g'.nodes = 1 ∧ |totalWeight g'.nodes - 1| ≤ ε * (g.nodes.length : K) := by
  obtain ⟨g0, h0, hs, hone, -, hl⟩ := rankStart_Built E g hb hne
  have hall : ∀ n r, passes α (1 / (g.nodes.length : K)) (g0, 1) n = some r →
      totalWeight r.1.nodes = 1 :=
    fun n r => passes_totalWeight α (1 / (g.nodes.length : K)) (g0, 1) hs (hl hbal) hone n r
  refine ⟨g0, h0, hall, ?_⟩
  intro fuel g' hdone
  simp only [Graph.Rank, h0] at hdone
  obtain ⟨n, r, hr, hg'⟩ := rankLoop_done_passes α ε (1 / (g.nodes.length : K)) fuel 1 g0 g' hdone
  have h1 : totalWeight g'.nodes = 1 := hg' ▸ hall n r hr
  refine ⟨h1, ?_⟩
  rw [h1, sub_self, abs_zero]
  exact mul_nonneg (le_of_lt hε) (Nat.cast_nonneg _)

set_option maxRecDepth 100000 in
/-- The amended C2 on the graph `a → b` (weight 1) with `α = 1/2`, `ε = 1/8`:
`Rank` returns within two passes and the weights it leaves sum to one. -/
theorem Rank_keeps_total_weight_witness :
    Built plainEscapers linkedPair ∧ Balanced linkedPair ∧ linkedPair.nodes ≠ [] ∧
      (0 : ℚ) < 1 / 8 ∧
      linkedPair.Rank 2 (1 / 2) (1 / 8) =
        Outcome.done ((linkedPair.Rank 2 (1 / 2) (1 / 8)).result.getD NewGraph) ∧
      totalWeight ((linkedPair.Rank 2 (1 / 2) (1 / 8)).result.getD NewGraph).nodes = 1 :=
  ⟨Built_linkedPair, by unfold Balanced; decide!, by decide, by norm_num, by decide!,
    (Exists.elim
      (Rank_keeps_total_weight plainEscapers linkedPair (1 / 2) (1 / 8) Built_linkedPair
        (by unfold Balanced; decide!) (by decide) (by norm_num))
      (fun _ h => (h.2.2 2 _ (by decide!)).1))⟩

end Mass

end Crawler
